import Mathlib

/-
Verification of the pyNeVer symbolic bound-propagation core.

Shallow embedding of:
  - pynever/nodes.py                        (layer IR: shape arithmetic, Conv→Toeplitz reduction)
  - pynever/strategies/bp/bounds_manager.py (BoundsManager.compute_bounds and its transformers)

Vectors are total functions ℕ → ℚ and matrices total functions ℕ → ℕ → ℚ; the
relevant dimensions are carried separately, exactly as the numpy arrays carry
their shapes.  Helper modules of the repository that are not part of the
source tree (bounds.py, linearfunctions.py, utils.py, property_converter.py)
are modelled from the specification and marked as such in their doc comments.
-/

namespace PyNever

/-! ## Basic linear-algebra carrier -/

/-- Dense rational vector; entries beyond the carried dimension are irrelevant. -/
def Vec : Type := ℕ → ℚ

/-- Dense rational matrix; entries beyond the carried dimensions are irrelevant. -/
def Mat : Type := ℕ → ℕ → ℚ

/-- Pointwise matrix sum. -/
def matAdd (A B : Mat) : Mat := fun i j => A i j + B i j

/-- Matrix product with explicit inner dimension `p`. -/
def matMul (A B : Mat) (p : ℕ) : Mat :=
  fun i j => ∑ t in Finset.range p, A i t * B t j

/-- Matrix-vector product with explicit inner dimension `p`. -/
def matVecMul (A : Mat) (v : Vec) (p : ℕ) : Vec :=
  fun i => ∑ t in Finset.range p, A i t * v t

/-- Pointwise vector sum. -/
def vecAdd (v w : Vec) : Vec := fun i => v i + w i

/-- The zero vector. -/
def zeroVec : Vec := fun _ => 0

/-- The identity matrix (`np.identity`). -/
def idMat : Mat := fun i j => if i = j then 1 else 0

/-- An affine map `x ↦ M·x + q` over the original network input
(`LinearFunctions` of `pynever/strategies/bp/linearfunctions.py`). -/
structure LinearFunctions where
  matrix : Mat
  offset : Vec

/-- Value of the affine map at `x`, with ambient input size `k`. -/
def evalLF (F : LinearFunctions) (x : Vec) (k : ℕ) : Vec :=
  fun i => (∑ j in Finset.range k, F.matrix i j * x j) + F.offset i

/-- A pair of affine maps sandwiching a layer value
(`SymbolicLinearBounds` of `pynever/strategies/bp/bounds.py`). -/
structure SymbolicLinearBounds where
  lower : LinearFunctions
  upper : LinearFunctions

/-! ## Modelled helpers (absent from src, reconstructed from the spec) -/

/-- Modelled from the spec: `get_positive_part` of
`pynever/strategies/bp/utils/utils.py` (file absent from src); spec §4.3:
entrywise `a⁺ = max(a,0)`. -/
def get_positive_part (W : Mat) : Mat := fun i j => max (W i j) 0

/-- Modelled from the spec: `get_negative_part` of
`pynever/strategies/bp/utils/utils.py` (file absent from src); spec §4.3:
entrywise `a⁻ = min(a,0)`. -/
def get_negative_part (W : Mat) : Mat := fun i j => min (W i j) 0

/-- Modelled from the spec: `compute_lin_lower_and_upper` of
`pynever/strategies/bp/utils/utils.py` (file absent from src); spec §4.3
affine transformer with `W = W⁺ + W⁻`:
`M_L' = W⁺·M_L + W⁻·M_U`, `q_L' = W⁺·q_L + W⁻·q_U + b`,
`M_U' = W⁺·M_U + W⁻·M_L`, `q_U' = W⁺·q_U + W⁻·q_L + b`.
`p` is the row count of `ML`/`MU` (the layer's input features). -/
def compute_lin_lower_and_upper (Wminus Wplus : Mat) (b : Vec)
    (ML MU : Mat) (qL qU : Vec) (p : ℕ) : Mat × Vec × Mat × Vec :=
  (matAdd (matMul Wplus ML p) (matMul Wminus MU p),
   vecAdd (vecAdd (matVecMul Wplus qL p) (matVecMul Wminus qU p)) b,
   matAdd (matMul Wplus MU p) (matMul Wminus ML p),
   vecAdd (vecAdd (matVecMul Wplus qU p) (matVecMul Wminus qL p)) b)

/-- Modelled from the spec: the lower half of the concretization of a
`LinearFunctions` over the box `[lo, hi]` (spec §4.3):
`lower_iᶜ = Σⱼ (M[i,j]⁺·lo[j] + M[i,j]⁻·hi[j]) + q[i]`.
Part of `LinearFunctions.compute_min_values` (file absent from src). -/
def lfMinValues (F : LinearFunctions) (lo hi : Vec) (k : ℕ) : Vec :=
  fun i =>
    (∑ j in Finset.range k,
        (max (F.matrix i j) 0 * lo j + min (F.matrix i j) 0 * hi j)) + F.offset i

/-- Modelled from the spec: the upper half of the concretization
(spec §4.3): `upper_iᶜ = Σⱼ (M[i,j]⁺·hi[j] + M[i,j]⁻·lo[j]) + q[i]`.
Part of `LinearFunctions.compute_max_values` (file absent from src). -/
def lfMaxValues (F : LinearFunctions) (lo hi : Vec) (k : ℕ) : Vec :=
  fun i =>
    (∑ j in Finset.range k,
        (max (F.matrix i j) 0 * hi j + min (F.matrix i j) 0 * lo j)) + F.offset i

/-- Modelled from the spec: `SymbolicLinearBounds.to_hyper_rectangle_bounds`
(file absent from src); spec §4.3 concretization: the box
`(min of the lower function, max of the upper function)`. -/
def to_hyper_rectangle_bounds (S : SymbolicLinearBounds) (lo hi : Vec) (k : ℕ) :
    Vec × Vec :=
  (lfMinValues S.lower lo hi k, lfMaxValues S.upper lo hi k)

/-- Modelled from the spec: `SymbolicLinearBounds.get_all_bounds`
(file absent from src); spec §4.3: the four corners
`(lower_lᶜ, lower_uᶜ, upper_lᶜ, upper_uᶜ)` computed by the same
sign-separated rule. -/
def get_all_bounds (S : SymbolicLinearBounds) (lo hi : Vec) (k : ℕ) :
    Vec × Vec × Vec × Vec :=
  (lfMinValues S.lower lo hi k, lfMaxValues S.lower lo hi k,
   lfMinValues S.upper lo hi k, lfMaxValues S.upper lo hi k)

/-! ## ReLU envelope coefficients (bounds_manager.py lines 183-237) -/

/-- Source `get_lin_lower_bound_coefficients(lower, upper)`:
`if lower >= 0: return 1, 0`; `if upper <= 0: return 0, 0`;
else `(upper/(upper-lower), 0)`. -/
def get_lin_lower_bound_coefficients (lower upper : ℚ) : ℚ × ℚ :=
  if 0 ≤ lower then (1, 0)
  else if upper ≤ 0 then (0, 0)
  else (upper / (upper - lower), 0)

/-- Source `get_lin_upper_bound_coefficients(lower, upper)`:
`if lower >= 0: return 1, 0`; `if upper <= 0: return 0, 0`;
else `mult = upper/(upper-lower); add = -mult*lower; return mult, add`. -/
def get_lin_upper_bound_coefficients (lower upper : ℚ) : ℚ × ℚ :=
  if 0 ≤ lower then (1, 0)
  else if upper ≤ 0 then (0, 0)
  else (upper / (upper - lower), -(upper / (upper - lower)) * lower)

/-- Source `get_array_lin_lower_bound_coefficients`: componentwise application. -/
def get_array_lin_lower_bound_coefficients (lower upper : Vec) : Vec × Vec :=
  (fun i => (get_lin_lower_bound_coefficients (lower i) (upper i)).1,
   fun i => (get_lin_lower_bound_coefficients (lower i) (upper i)).2)

/-- Source `get_array_lin_upper_bound_coefficients`: componentwise application. -/
def get_array_lin_upper_bound_coefficients (lower upper : Vec) : Vec × Vec :=
  (fun i => (get_lin_upper_bound_coefficients (lower i) (upper i)).1,
   fun i => (get_lin_upper_bound_coefficients (lower i) (upper i)).2)

/-- Source `get_transformed_matrix(matrix, k)`: row `i` scaled by `k[i]`. -/
def get_transformed_matrix (m : Mat) (k : Vec) : Mat := fun i j => m i j * k i

/-- Source `get_transformed_offset(offset, k, b)`: `offset * k + b`. -/
def get_transformed_offset (off k b : Vec) : Vec := fun i => off i * k i + b i

/-- Source `BoundsManager.compute_symb_lin_bounds_equations`. -/
def compute_symb_lin_bounds_equations (inputs : SymbolicLinearBounds)
    (lower_l lower_u upper_l upper_u : Vec) :
    LinearFunctions × LinearFunctions :=
  let kb_lower := get_array_lin_lower_bound_coefficients lower_l lower_u
  let kb_upper := get_array_lin_upper_bound_coefficients upper_l upper_u
  let lower_matrix := get_transformed_matrix inputs.lower.matrix kb_lower.1
  let upper_matrix := get_transformed_matrix inputs.upper.matrix kb_upper.1
  let lower_offset := get_transformed_offset inputs.lower.offset kb_lower.1 kb_lower.2
  let upper_offset := get_transformed_offset inputs.upper.offset kb_upper.1 kb_upper.2
  (⟨lower_matrix, lower_offset⟩, ⟨upper_matrix, upper_offset⟩)

/-- Source `BoundsManager.compute_relu_output_bounds(inputs, input_hyper_rect)`;
the input box is `[lo, hi]` of size `k`. -/
def compute_relu_output_bounds (inputs : SymbolicLinearBounds)
    (lo hi : Vec) (k : ℕ) : SymbolicLinearBounds :=
  let all := get_all_bounds inputs lo hi k
  let lu := compute_symb_lin_bounds_equations inputs all.1 all.2.1 all.2.2.1 all.2.2.2
  ⟨lu.1, lu.2⟩

/-- Source `BoundsManager.compute_dense_output_bounds(layer, inputs)` with the
layer's weight `W`, bias `b` and input-feature count `p`. -/
def compute_dense_output_bounds (W : Mat) (b : Vec) (p : ℕ)
    (inputs : SymbolicLinearBounds) : SymbolicLinearBounds :=
  let Wplus := get_positive_part W
  let Wminus := get_negative_part W
  let r := compute_lin_lower_and_upper Wminus Wplus b
      inputs.lower.matrix inputs.upper.matrix
      inputs.lower.offset inputs.upper.offset p
  ⟨⟨r.1, r.2.1⟩, ⟨r.2.2.1, r.2.2.2⟩⟩

/-! ## Layer IR shape arithmetic (nodes.py) -/

/-- Python `list.insert(idx, a)` semantics: a negative index counts from the
end, and the position is clamped into `[0, len]`. -/
def pyInsert {α : Type} (l : List α) (idx : ℤ) (a : α) : List α :=
  let pos : ℕ := if idx < 0 then ((l.length : ℤ) + idx).toNat else min idx.toNat l.length
  l.take pos ++ a :: l.drop pos

/-- Source `UnsqueezeNode.__init__` output shape (nodes.py lines 797-804):
`out_dim = list(in_dim)`, then `out_dim.insert(e, 1)` for `e` in `axes`
**in the given order** (the sorted copy `temp_axes` is computed but unused). -/
def unsqueeze_out_dim (in_dim : List ℕ) (axes : List ℤ) : List ℕ :=
  axes.foldl (fun acc e => pyInsert acc e 1) in_dim

/-- Following the spec's words (§4.1 Unsqueeze): out_dim is obtained by
inserting 1s at the **sorted** axes. -/
def unsqueeze_out_dim_sorted (in_dim : List ℕ) (axes : List ℤ) : List ℕ :=
  (List.insertionSort (fun a b => a ≤ b) axes).foldl (fun acc e => pyInsert acc e 1) in_dim

/-- Python slice stop `l[0:axis]` semantics: negative counts from the end,
clamped into `[0, len]`. -/
def pySliceStop (len : ℕ) (axis : ℤ) : ℕ :=
  if axis < 0 then ((len : ℤ) + axis).toNat else min axis.toNat len

/-- Source `FlattenNode.__init__` output shape (nodes.py lines 881-888):
`np.reshape(ones(in_dim), (-1,))` when `axis = 0` — a **one-element** shape —
else `(prod(in_dim[0:axis]), -1)` resolved by numpy.  (The degenerate case of
a zero-sized prefix, on which numpy raises, is out of scope of the claims.) -/
def flatten_out_dim (in_dim : List ℕ) (axis : ℤ) : List ℕ :=
  if axis = 0 then [in_dim.prod]
  else
    let p := (in_dim.take (pySliceStop in_dim.length axis)).prod
    [p, in_dim.prod / p]

/-- Following the spec's words (§4.1 Flatten and the class docstring):
out_dim is `(1, ∏ in_dim)` when `axis = 0`, else as the source. -/
def flatten_out_dim_docstring (in_dim : List ℕ) (axis : ℤ) : List ℕ :=
  if axis = 0 then [1, in_dim.prod]
  else
    let p := (in_dim.take (pySliceStop in_dim.length axis)).prod
    [p, in_dim.prod / p]

/-- Source `SumNode.__init__` validation loop (nodes.py lines 1005-1007):
`for i in range(len(in_dim)): if in_dim[i] != in_dim_second[i]: raise`.
Reading past the end of `in_dim_second` is a Python `IndexError`;
extra trailing dimensions of `in_dim_second` are never examined.
On success `out_dim = in_dim`. -/
def sumCheck : List ℕ → List ℕ → Except String Unit
  | [], _ => .ok ()
  | _ :: _, [] => .error "IndexError"
  | a :: as, b :: bs =>
      if a ≠ b then .error "All input tensors must have the same shape."
      else sumCheck as bs

/-- Source `SumNode.__init__`: run the validation loop, then `out_dim = in_dim`. -/
def sumNode_init (in_dim in_dim_second : List ℕ) : Except String (List ℕ) :=
  match sumCheck in_dim in_dim_second with
  | .ok _ => .ok in_dim
  | .error e => .error e

/-- The parameter vectors a constructed `BatchNormNode` ends up with. -/
structure BatchNormState where
  weight : List ℚ
  bias : List ℚ
  running_mean : Option (List ℚ)
  running_var : Option (List ℚ)
deriving DecidableEq

/-- Source `BatchNormNode.__init__` (nodes.py lines 287-336), restricted to the
parameter initialisation: `num_features = in_dim[0]`; with
`track_running_stats`, an omitted `running_mean` defaults to `np.ones` and an
omitted `running_var` to `np.zeros` (note the reversal), then their lengths are
checked; an omitted `weight` defaults to ones and an omitted `bias` to zeros,
then their lengths are checked. -/
def batchnorm_init (in_dim : List ℕ)
    (weight bias running_mean running_var : Option (List ℚ))
    (track_running_stats : Bool) : Except String BatchNormState :=
  match in_dim with
  | [] => .error "in_dim cannot be empty"
  | nf :: _ =>
    let rmrv : Option (List ℚ × List ℚ) ⊕ String :=
      if track_running_stats then
        let rm := running_mean.getD (List.replicate nf 1)
        let rv := running_var.getD (List.replicate nf 0)
        if rv.length ≠ nf then
          .inr "The dimension of the running_var should be equal to num_features"
        else if rm.length ≠ nf then
          .inr "The dimension of the running_mean should be equal to num_features"
        else .inl (some (rm, rv))
      else .inl none
    match rmrv with
    | .inr e => .error e
    | .inl mrv =>
      let w := weight.getD (List.replicate nf 1)
      let b := bias.getD (List.replicate nf 0)
      if w.length ≠ nf then
        .error "The dimension of the weight should be equal to num_features"
      else if b.length ≠ nf then
        .error "The dimension of the bias should be equal to num_features"
      else .ok ⟨w, b, mrv.map Prod.fst, mrv.map Prod.snd⟩

/-! ## Convolution → Toeplitz reduction (nodes.py lines 463-554) -/

/-- Entry `(i, j)` of `scipy.linalg.toeplitz(c, r)`: first column `c`, first
row `r`, with the diagonal taken from `c` (the call sites set `c[0] = r[0]`). -/
def toeplitzE {α : Type} (c r : ℕ → α) (i j : ℕ) : α :=
  if i < j then r (j - i) else c (i - j)

/-- The zero-padded filter row of `conv_filter_as_matrix`:
`np.pad(filters, ((0,0), (0, W - Kw + 2*padding[0])))`. -/
def cfmPadRow (filter : ℕ → ℕ → ℚ) (Kw : ℕ) (i j : ℕ) : ℚ :=
  if j < Kw then filter i j else 0

/-- The first column passed to `toeplitz` for filter row `i`:
`np.r_[r[0], zeros(H - Kh + 2*padding[0])]`. -/
def cfmCol (filter : ℕ → ℕ → ℚ) (Kw : ℕ) (i a : ℕ) : ℚ :=
  if a = 0 then cfmPadRow filter Kw i 0 else 0

/-- Filter row `i`'s Toeplitz block after the source's slicing
`t[0 : rows : stride[0], padding[1] : cols - padding[1]]`. -/
def cfmBlock (filter : ℕ → ℕ → ℚ) (Kw s p1 : ℕ) (i a b : ℕ) : ℚ :=
  toeplitzE (cfmCol filter Kw i) (cfmPadRow filter Kw i) (a * s) (b + p1)

/-- The block-index Toeplitz matrix `doubly_indices` before slicing: built from
`r = np.r_[range(1, Kh+1), zeros(H - Kh + 2*padding[0])]` and
`c = np.r_[r[0], zeros(H - Kh + 2*padding[0])]`  (for `Kh ≥ 1`, `c[0] = 1`). -/
def cfmDIdx (Kh : ℕ) (a j : ℕ) : ℕ :=
  toeplitzE (fun x => if x = 0 then (if 0 < Kh then 1 else 0) else 0)
    (fun x => if x < Kh then x + 1 else 0) a j

/-- `doubly_indices` after the slicing
`[0 : rows : stride[0], padding[1] : cols - padding[1]]`. -/
def cfmDSliced (Kh s p1 : ℕ) (β j : ℕ) : ℕ :=
  cfmDIdx Kh (β * s) (j + p1)

/-- Height of one tiled block: `toeplitz_list[0]` is
`zeros(( (H - Kh + 2*padding[1]) / stride[0] + 1, W))`. -/
def cfmBlockH (Kh H s p1 : ℕ) : ℕ := (H - Kh + 2 * p1) / s + 1

/-- Source `ConvNode.conv_filter_as_matrix(filters, input_shape, stride,
padding)` as a total entry function: the doubly-blocked matrix tiles
`toeplitz_list[doubly_indices[i, j]]` at block `(i, j)`, blocks being
`cfmBlockH × W`.  `s = stride[0]`, `p0 = padding[0]`, `p1 = padding[1]`
exactly as the source reads them. -/
def conv_filter_as_matrix (filter : ℕ → ℕ → ℚ) (Kh Kw H W s _p0 p1 : ℕ)
    (rowIdx colIdx : ℕ) : ℚ :=
  let idx := cfmDSliced Kh s p1 (rowIdx / cfmBlockH Kh H s p1) (colIdx / W)
  if idx = 0 then 0
  else cfmBlock filter Kw s p1 (idx - 1) (rowIdx % cfmBlockH Kh H s p1) (colIdx % W)

/-- Row count of the matrix `conv_filter_as_matrix` builds:
block height times the row count of the sliced `doubly_indices`. -/
def cfmRowCount (Kh H s p0 p1 : ℕ) : ℕ :=
  cfmBlockH Kh H s p1 * ((H - Kh + 2 * p0) / s + 1)

/-- Column count of the matrix `conv_filter_as_matrix` builds:
`W` times the column count of the sliced `doubly_indices`. -/
def cfmColCount (H W p0 p1 : ℕ) : ℕ := W * (H + 2 * p0 - 2 * p1)

/-- The payload of a `ConvNode` over a 2-D input of shape `(C, H, W)` with
`groups = 1`: weight of shape `(F, C, Kh, Kw)`, per-axis stride, begin/end
padding `(top, left, bottom, right)`, dilation, and optional bias. -/
structure ConvNodeData where
  C : ℕ
  H : ℕ
  W : ℕ
  F : ℕ
  Kh : ℕ
  Kw : ℕ
  stride : ℕ × ℕ
  padding : ℕ × ℕ × ℕ × ℕ
  dilation : ℕ × ℕ
  weight : ℕ → ℕ → ℕ → ℕ → ℚ
  bias : Option Vec

/-- Source `ConvNode.get_weights_as_fc_matrices`: per filter `f`, the
per-channel Toeplitz matrices are stacked, transposed `(C, R, cols) →
(R, cols, C)` and reshaped to `(R, cols·C)`, interleaving the channels
innermost; entry `(rr, col)` is block `col % C` at `(rr, col / C)`. -/
def get_weights_as_fc_matrices (nd : ConvNodeData) (f rr col : ℕ) : ℚ :=
  conv_filter_as_matrix (nd.weight f (col % nd.C)) nd.Kh nd.Kw nd.H nd.W
    nd.stride.1 nd.padding.1 nd.padding.2.1 rr (col / nd.C)

/-- Row count of each stacked matrix of `get_weights_as_fc_matrices`. -/
def fcMatRowCount (nd : ConvNodeData) : ℕ :=
  cfmRowCount nd.Kh nd.H nd.stride.1 nd.padding.1 nd.padding.2.1

/-- Column count of each stacked matrix of `get_weights_as_fc_matrices`. -/
def fcMatColCount (nd : ConvNodeData) : ℕ :=
  nd.C * cfmColCount nd.H nd.W nd.padding.1 nd.padding.2.1

/-- The value `X[ch, i, j]` of the channel-interleaved flattening `x` of a
`(C, H, W)` tensor (`x[(i*W + j)*C + ch] = X[ch, i, j]`), zero outside. -/
def tensorAt (C H W : ℕ) (x : Vec) (ch : ℕ) (i j : ℤ) : ℚ :=
  if 0 ≤ i ∧ i < (H : ℤ) ∧ 0 ≤ j ∧ j < (W : ℤ) then
    x ((i.toNat * W + j.toNat) * C + ch)
  else 0

/-- Direct 2-D convolution of the channel-interleaved flattened input `x`
by the layer's weight, stride, padding and dilation — the claim's
"direct convolution", written from its words (out-of-range taps read zero). -/
def direct_conv (nd : ConvNodeData) (x : Vec) (f a b : ℕ) : ℚ :=
  ∑ ch in Finset.range nd.C, ∑ di in Finset.range nd.Kh, ∑ dj in Finset.range nd.Kw,
    nd.weight f ch di dj *
      tensorAt nd.C nd.H nd.W x ch
        ((a * nd.stride.1 + di * nd.dilation.1 : ℤ) - nd.padding.1)
        ((b * nd.stride.2 + dj * nd.dilation.2 : ℤ) - nd.padding.2.1)

/-- Output rows of the conv layer (`ConvNode.__init__` out_dim formula,
axis 1: paddings `padding[0]` and `padding[2]`). -/
def convOutR (nd : ConvNodeData) : ℕ :=
  (nd.H + nd.padding.1 + nd.padding.2.2.1 - nd.dilation.1 * (nd.Kh - 1) - 1) / nd.stride.1 + 1

/-- Output columns of the conv layer (`ConvNode.__init__` out_dim formula,
axis 2: paddings `padding[1]` and `padding[3]`). -/
def convOutC (nd : ConvNodeData) : ℕ :=
  (nd.W + nd.padding.2.1 + nd.padding.2.2.2 - nd.dilation.2 * (nd.Kw - 1) - 1) / nd.stride.2 + 1

/-! ## BoundsManager (bounds_manager.py lines 20-81, 120-180) -/

/-- Source `BoundsManager.propagate_convolution_bounds`: the stacked Toeplitz
matrices are split by sign and applied like an affine transformer; the rows
`(f, R, N)` are then transposed and reshaped to `(R·F, N)`, so output row
`r·F + f` holds filter `f` at spatial position `r`.  The inner dot dimension
is the stacked matrices' column count. -/
def propagate_convolution_bounds (nd : ConvNodeData)
    (bounds : SymbolicLinearBounds) : SymbolicLinearBounds :=
  let p := fcMatColCount nd
  let Wp := fun f r t => max (get_weights_as_fc_matrices nd f r t) 0
  let Wm := fun f r t => min (get_weights_as_fc_matrices nd f r t) 0
  let biasAt := fun f => match nd.bias with | some b => b f | none => 0
  let lowerM : Mat := fun row j =>
    (∑ t in Finset.range p, Wp (row % nd.F) (row / nd.F) t * bounds.lower.matrix t j) +
    (∑ t in Finset.range p, Wm (row % nd.F) (row / nd.F) t * bounds.upper.matrix t j)
  let upperM : Mat := fun row j =>
    (∑ t in Finset.range p, Wp (row % nd.F) (row / nd.F) t * bounds.upper.matrix t j) +
    (∑ t in Finset.range p, Wm (row % nd.F) (row / nd.F) t * bounds.lower.matrix t j)
  let lowerO : Vec := fun row =>
    (∑ t in Finset.range p, Wp (row % nd.F) (row / nd.F) t * bounds.lower.offset t) +
    (∑ t in Finset.range p, Wm (row % nd.F) (row / nd.F) t * bounds.upper.offset t) +
    biasAt (row % nd.F)
  let upperO : Vec := fun row =>
    (∑ t in Finset.range p, Wp (row % nd.F) (row / nd.F) t * bounds.upper.offset t) +
    (∑ t in Finset.range p, Wm (row % nd.F) (row / nd.F) t * bounds.lower.offset t) +
    biasAt (row % nd.F)
  ⟨⟨lowerM, lowerO⟩, ⟨upperM, upperO⟩⟩

/-- The abstract layers `BoundsManager.compute_bounds` dispatches on.
`other` stands for any abstract node kind outside
{FullyConnected, Conv, ReLU, MaxPool} (e.g. `AbsSigmoidNode`), carrying the
kind name for reference. -/
inductive AbsLayer where
  | fullyConnected (identifier : String) (weight : Mat) (bias : Vec) (outF inF : ℕ)
  | convolutional (identifier : String) (nd : ConvNodeData)
  | relu (identifier : String)
  | maxPool (identifier : String)
  | other (identifier : String) (kind : String)

/-- The identifier of an abstract layer. -/
def AbsLayer.ident : AbsLayer → String
  | .fullyConnected i _ _ _ _ => i
  | .convolutional i _ => i
  | .relu i => i
  | .maxPool i => i
  | .other i _ => i

/-- The loop state of `compute_bounds`: the Python locals (which start
undefined, hence `Option`) and the three result dictionaries. -/
structure BMState where
  current : SymbolicLinearBounds
  sdob : Option SymbolicLinearBounds
  saob : Option SymbolicLinearBounds
  preact : Option (Vec × Vec)
  postact : Option (Vec × Vec)
  symMap : String → Option (SymbolicLinearBounds × SymbolicLinearBounds)
  preMap : String → Option (Vec × Vec)
  postMap : String → Option (Vec × Vec)

/-- The message of the `raise` in the `else` branch of `compute_bounds`
(bounds_manager.py line 72). -/
def unsupportedMsg : String :=
  "Currently supporting bounds computation only for Relu and Linear activation functions"

/-- Overwrite a dictionary entry. -/
def mapPut {α : Type} (m : String → Option α) (key : String) (v : α) :
    String → Option α :=
  fun s => if s = key then some v else m s

/-- One iteration of the `compute_bounds` loop (bounds_manager.py lines
44-79): dispatch on the layer kind, then record
`symbolic_bounds[id] = (sdob, saob)`, the numeric pre/post-activation bounds,
and set `current_input_bounds = saob`.  Reading a Python local that was never
assigned raises a `NameError`. -/
def bmStep (k : ℕ) (lo hi : Vec) (s : BMState) (layer : AbsLayer) :
    Except String BMState :=
  match layer with
  | .relu id =>
      match s.sdob, s.preact with
      | some sd, some pre =>
          let sa := compute_relu_output_bounds sd lo hi k
          let post := (fun i => max (pre.1 i) 0, fun i => max (pre.2 i) 0)
          .ok ⟨sa, some sd, some sa, some pre, some post,
               mapPut s.symMap id (sd, sa), mapPut s.preMap id pre,
               mapPut s.postMap id post⟩
      | _, _ => .error "NameError"
  | .fullyConnected id W b _outF inF =>
      let sd := compute_dense_output_bounds W b inF s.current
      let pre := to_hyper_rectangle_bounds sd lo hi k
      let post := (pre.1, pre.2)
      .ok ⟨sd, some sd, some sd, some pre, some post,
           mapPut s.symMap id (sd, sd), mapPut s.preMap id pre,
           mapPut s.postMap id post⟩
  | .convolutional id nd =>
      let sd := propagate_convolution_bounds nd s.current
      let pre := to_hyper_rectangle_bounds sd lo hi k
      let post := (pre.1, pre.2)
      .ok ⟨sd, some sd, some sd, some pre, some post,
           mapPut s.symMap id (sd, sd), mapPut s.preMap id pre,
           mapPut s.postMap id post⟩
  | .maxPool id =>
      match s.sdob, s.saob, s.preact, s.postact with
      | some sd, some sa, some pre, some post =>
          .ok ⟨sa, some sd, some sa, some pre, some post,
               mapPut s.symMap id (sd, sa), mapPut s.preMap id pre,
               mapPut s.postMap id post⟩
      | _, _, _, _ => .error "NameError"
  | .other _ _ => .error unsupportedMsg

/-- The `for` loop of `compute_bounds` over the layer list. -/
def bmRun (k : ℕ) (lo hi : Vec) : BMState → List AbsLayer → Except String BMState
  | s, [] => .ok s
  | s, l :: ls =>
      match bmStep k lo hi s l with
      | .ok s2 => bmRun k lo hi s2 ls
      | .error e => .error e

/-- The initial state: identity symbolic input bounds of size `k`
(bounds_manager.py lines 34-43), all locals undefined, empty dictionaries. -/
def initBMState : BMState :=
  ⟨⟨⟨idMat, zeroVec⟩, ⟨idMat, zeroVec⟩⟩, none, none, none, none,
   fun _ => none, fun _ => none, fun _ => none⟩

/-- Source `BoundsManager.compute_bounds`, with the input box `[lo, hi]` of
size `k` standing for the `HyperRectBounds` the property converter produces
(`PropertyFormatConverter` is absent from src and is abstracted by the box
itself, per spec §4.5). -/
def computeBounds (k : ℕ) (lo hi : Vec) (layers : List AbsLayer) :
    Except String BMState :=
  bmRun k lo hi initBMState layers

/-- `Except` success test. -/
def isOkE {ε α : Type} : Except ε α → Bool
  | .ok _ => true
  | .error _ => false

/-- Success payload of an `Except`, if any. -/
def okOf {ε α : Type} : Except ε α → Option α
  | .ok a => some a
  | .error _ => none

/-- Error payload of an `Except`, if any. -/
def errOf {ε α : Type} : Except ε α → Option ε
  | .ok _ => none
  | .error e => some e

/-! ## Concrete network semantics (the "true" forward pass) -/

/-- Componentwise ReLU of a vector. -/
def reluVec (v : Vec) : Vec := fun i => max (v i) 0

/-- The true value of the convolution layer, as a flat vector ordered with
the spatial position outer and the filter innermost (`row = r·F + f`,
`r = a·outC + b`), matching the row ordering documented in
`propagate_convolution_bounds`; the input vector is read in the
channel-interleaved layout documented in `get_weights_as_fc_matrices`. -/
def convLayerValue (nd : ConvNodeData) (v : Vec) : Vec :=
  fun row =>
    direct_conv nd v (row % nd.F) ((row / nd.F) / convOutC nd) ((row / nd.F) % convOutC nd) +
      (match nd.bias with | some b => b (row % nd.F) | none => 0)

/-- The true value computed by one layer on the (flattened) input vector `v`
in exact arithmetic.  MaxPool and unsupported layers never occur in the
networks claim C1 ranges over; they are given identity semantics. -/
def layerValue : AbsLayer → Vec → Vec
  | .fullyConnected _ W b _outF inF, v => fun i => (∑ j in Finset.range inF, W i j * v j) + b i
  | .convolutional _ nd, v => convLayerValue nd v
  | .relu _, v => reluVec v
  | .maxPool _, v => v
  | .other _ _, v => v

/-- Output vector length of one layer given its input length. -/
def layerOutDim (n : ℕ) : AbsLayer → ℕ
  | .fullyConnected _ _ _ outF _ => outF
  | .convolutional _ nd => nd.F * (convOutR nd * convOutC nd)
  | .relu _ => n
  | .maxPool _ => n
  | .other _ _ => n

/-- The list of true layer values along the network (value after each layer). -/
def layerValues (v : Vec) : List AbsLayer → List Vec
  | [] => []
  | l :: ls => layerValue l v :: layerValues (layerValue l v) ls

/-- The list of output dimensions along the network. -/
def layerOutDims (n : ℕ) : List AbsLayer → List ℕ
  | [] => []
  | l :: ls => layerOutDim n l :: layerOutDims (layerOutDim n l) ls

/-- A convolution layer on which the source's Toeplitz reduction is exact:
both stride components equal, all four padding values equal, dilation 1, a
square output feature map, at least one input channel and a nonempty kernel
that fits in the padded input. -/
def goodConv (nd : ConvNodeData) : Prop :=
  nd.stride.1 = nd.stride.2 ∧ nd.stride.1 ≠ 0 ∧
  nd.padding.1 = nd.padding.2.1 ∧ nd.padding.1 = nd.padding.2.2.1 ∧
  nd.padding.1 = nd.padding.2.2.2 ∧
  nd.dilation = (1, 1) ∧
  nd.H + 2 * nd.padding.1 ≥ nd.Kh ∧ nd.W + 2 * nd.padding.1 ≥ nd.Kw ∧
  nd.H - nd.Kh = nd.W - nd.Kw ∧ nd.H ≥ nd.Kh ∧ nd.W ≥ nd.Kw ∧
  1 ≤ nd.Kh ∧ 1 ≤ nd.Kw ∧ 1 ≤ nd.C

/-- Well-formedness of a network for claim C1 (amended): only
FullyConnected, Conv and ReLU layers, mutually consistent dimensions,
and every convolution layer good in the sense of `goodConv`. -/
def wfNet : ℕ → List AbsLayer → Prop
  | _, [] => True
  | n, .fullyConnected _ _ _ outF inF :: ls => inF = n ∧ wfNet outF ls
  | n, .convolutional _ nd :: ls =>
      nd.C * (nd.H * nd.W) = n ∧ goodConv nd ∧
      wfNet (nd.F * (convOutR nd * convOutC nd)) ls
  | n, .relu _ :: ls => wfNet n ls
  | _, .maxPool _ :: _ => False
  | _, .other _ _ :: _ => False

/-- Membership of the point `x` in the box `[lo, hi]` of size `k`. -/
def inBox (lo hi x : Vec) (k : ℕ) : Prop :=
  ∀ j, j < k → lo j ≤ x j ∧ x j ≤ hi j

/-- Layers on which the propagator computes something: FullyConnected, Conv
and ReLU. -/
def AbsLayer.isPropagating : AbsLayer → Bool
  | .fullyConnected _ _ _ _ _ => true
  | .convolutional _ _ => true
  | .relu _ => true
  | .maxPool _ => false
  | .other _ _ => false

/-- MaxPool layer test. -/
def AbsLayer.isMaxPoolLayer : AbsLayer → Bool
  | .maxPool _ => true
  | _ => false

/-- The frame a MaxPool step must preserve: the four loop locals hold the
values recorded for layer `lid` (the nearest preceding non-MaxPool layer),
`current_input_bounds` equals the activation bounds, and the three
dictionaries store those same values under `lid`. -/
def FramedFrom (lid : String) (SD SA : SymbolicLinearBounds) (PR PO : Vec × Vec)
    (s : BMState) : Prop :=
  s.sdob = some SD ∧ s.saob = some SA ∧ s.preact = some PR ∧ s.postact = some PO ∧
  s.current = SA ∧ s.symMap lid = some (SD, SA) ∧ s.preMap lid = some PR ∧
  s.postMap lid = some PO

/-- The symbolic-bounds dictionary entry of a finished run, if any. -/
def symAt (e : Except String BMState) (id : String) :
    Option (SymbolicLinearBounds × SymbolicLinearBounds) :=
  match e with
  | .ok s => s.symMap id
  | .error _ => none

/-- The invariant carried through the `compute_bounds` loop: the current
symbolic bounds sandwich the current true value `v` (length `n`), and when
the local `symbolic_dense_output_bounds` is set, it sandwiches the last
affine output `z` (whose ReLU, or `z` itself, is the current value) and the
numeric pre-activation local is set too. -/
def StateSound (k : ℕ) (x : Vec) (v : Vec) (n : ℕ) (s : BMState) : Prop :=
  (∀ i, i < n → evalLF s.current.lower x k i ≤ v i ∧ v i ≤ evalLF s.current.upper x k i) ∧
  (s.sdob = none ∨
    ∃ SD z, s.sdob = some SD ∧ s.preact.isSome = true ∧
      (∀ i, i < n → evalLF SD.lower x k i ≤ z i ∧ z i ≤ evalLF SD.upper x k i) ∧
      (v = z ∨ v = reluVec z))

/-- The input point `(1/2, 1/2, …)` used by witnesses. -/
def halfVec : Vec := fun _ => 1 / 2

/-- Helper for reindexing a clipped correlation window: the common refinement
of a window sum read by position and by offset. -/
def windowG (u : ℕ → ℕ → ℚ) (K L p α : ℕ) (t : ℕ) : ℚ :=
  if α ≤ t ∧ t - α < K ∧ p ≤ t ∧ t - p < L then u (t - α) (t - p) else 0

/-! ## Concrete instances used by counterexamples and witnesses -/

/-- A convolution layer with a non-square output feature map: one 1×1
all-ones filter on a `(1, 2, 3)` input, stride `(1,1)`, no padding, no bias. -/
def cexConv : ConvNodeData :=
  ⟨1, 2, 3, 1, 1, 1, (1, 1), (0, 0, 0, 0), (1, 1), fun _ _ _ _ => 1, none⟩

/-- Indicator input: 1 at flat index 2 (pixel `(0, 2)` of the 2×3 image),
0 elsewhere. -/
def cexX : Vec := fun j => if j = 2 then 1 else 0

/-- A good convolution layer: one 2×2 all-ones filter on a `(1, 3, 3)` input,
stride `(1,1)`, no padding, no bias; its output feature map is square. -/
def goodConvEx : ConvNodeData :=
  ⟨1, 3, 3, 1, 2, 2, (1, 1), (0, 0, 0, 0), (1, 1), fun _ _ _ _ => 1, none⟩

/-- The all-ones input vector. -/
def oneVecQ : Vec := fun _ => 1

/-- The upper symbolic bound of the counterexample conv layer, recorded by
`compute_bounds` under `"c1"`, evaluated at the counterexample input `cexX`,
at output component 2. -/
def cexUpperEval : Option ℚ :=
  match symAt (computeBounds 6 zeroVec oneVecQ
      [AbsLayer.convolutional "c1" cexConv]) "c1" with
  | some (_, SA) => some (evalLF SA.upper cexX 6 2)
  | none => none

/-! # Theorems -/

/-- Helper: a sum over `range N` of a function supported on `[a, a+len)`
equals the shifted sum over `range len`. -/
theorem sum_shift_window (f : ℕ → ℚ) (N a len : ℕ)
    (h0 : ∀ t, t < a → f t = 0) (h1 : ∀ t, a + len ≤ t → f t = 0)
    (hN : a + len ≤ N) :
    ∑ t in Finset.range N, f t = ∑ u in Finset.range len, f (a + u) := by
  have hsub : Finset.Ico a (a + len) ⊆ Finset.range N := by
    intro t ht
    rw [Finset.mem_Ico] at ht
    rw [Finset.mem_range]
    omega
  have hz : ∀ x ∈ Finset.range N, x ∉ Finset.Ico a (a + len) → f x = 0 := by
    intro t _ htn
    rw [Finset.mem_Ico] at htn
    push_neg at htn
    rcases Nat.lt_or_ge t a with hc | hc
    · exact h0 t hc
    · have h2 := htn hc
      exact h1 t (by omega)
  calc ∑ t in Finset.range N, f t
      = ∑ t in Finset.Ico a (a + len), f t := (Finset.sum_subset hsub hz).symm
    _ = ∑ u in Finset.range (a + len - a), f (a + u) := by
          rw [Finset.sum_Ico_eq_sum_range]
    _ = ∑ u in Finset.range len, f (a + u) := by rw [Nat.add_sub_cancel_left]

/-- Helper: reading a clipped correlation window by position `b` (with the
kernel tap clipped) equals reading it by kernel offset `j` (with the input
position clipped). -/
theorem window_reindex (u : ℕ → ℕ → ℚ) (K L p α : ℕ) :
    (∑ b in Finset.range L, if α ≤ b + p ∧ b + p - α < K then u (b + p - α) b else 0)
      = ∑ j in Finset.range K, if p ≤ α + j ∧ α + j - p < L then u j (α + j - p) else 0 := by
  have hL : ∑ t in Finset.range (p + L + (α + K)), windowG u K L p α t
      = ∑ b in Finset.range L, windowG u K L p α (p + b) :=
    sum_shift_window _ _ p L
      (fun t ht => by unfold windowG; rw [if_neg]; omega)
      (fun t ht => by unfold windowG; rw [if_neg]; omega)
      (by omega)
  have hR : ∑ t in Finset.range (p + L + (α + K)), windowG u K L p α t
      = ∑ j in Finset.range K, windowG u K L p α (α + j) :=
    sum_shift_window _ _ α K
      (fun t ht => by unfold windowG; rw [if_neg]; omega)
      (fun t ht => by unfold windowG; rw [if_neg]; omega)
      (by omega)
  have e1 : ∀ b ∈ Finset.range L,
      windowG u K L p α (p + b)
        = if α ≤ b + p ∧ b + p - α < K then u (b + p - α) b else 0 := by
    intro b hb
    rw [Finset.mem_range] at hb
    unfold windowG
    rcases Nat.lt_or_ge (b + p) α with hc | hc
    · rw [if_neg (by omega), if_neg (by omega)]
    · by_cases h2 : b + p - α < K
      · rw [if_pos (by omega), if_pos (by omega)]
        congr 1 <;> omega
      · rw [if_neg (by omega), if_neg (by omega)]
  have e2 : ∀ j ∈ Finset.range K,
      windowG u K L p α (α + j)
        = if p ≤ α + j ∧ α + j - p < L then u j (α + j - p) else 0 := by
    intro j hj
    rw [Finset.mem_range] at hj
    unfold windowG
    rcases Nat.lt_or_ge (α + j) p with hc | hc
    · rw [if_neg (by omega), if_neg (by omega)]
    · by_cases h2 : α + j - p < L
      · rw [if_pos (by omega), if_pos (by omega)]
        congr 1 <;> omega
      · rw [if_neg (by omega), if_neg (by omega)]
  rw [← Finset.sum_congr rfl e1, ← hL, hR, Finset.sum_congr rfl e2]

/-- Helper: splitting a sum over `range (m·n)` along the mixed radix `i = a·n + b`. -/
theorem sum_range_mul (m n : ℕ) (g : ℕ → ℚ) :
    ∑ i in Finset.range (m * n), g i
      = ∑ a in Finset.range m, ∑ b in Finset.range n, g (a * n + b) := by
  induction m with
  | zero => simp
  | succ m ih =>
      rw [Nat.succ_mul, Finset.sum_range_add, ih, Finset.sum_range_succ]

/-- Helper: closed form of the sliced block-index Toeplitz matrix
`doubly_indices`: entry `(β, j)` selects filter row `j + p1 − β·s` (1-based)
when that offset lies in `[0, Kh)`, else the zero block. -/
theorem cfmDSliced_eq (Kh s p1 β j : ℕ) (hKh : 1 ≤ Kh) :
    cfmDSliced Kh s p1 β j =
      if β * s ≤ j + p1 ∧ j + p1 - β * s < Kh then j + p1 - β * s + 1 else 0 := by
  unfold cfmDSliced cfmDIdx toeplitzE
  beta_reduce
  split_ifs <;> omega

/-- Helper: closed form of a sliced per-row Toeplitz block: entry `(α, b)`
reads filter tap `b + p1 − α·s` when that offset lies in `[0, Kw)`. -/
theorem cfmBlock_eq (filter : ℕ → ℕ → ℚ) (Kw s p1 i α b : ℕ) (hKw : 1 ≤ Kw) :
    cfmBlock filter Kw s p1 i α b =
      if α * s ≤ b + p1 ∧ b + p1 - α * s < Kw then filter i (b + p1 - α * s) else 0 := by
  unfold cfmBlock toeplitzE cfmCol cfmPadRow
  beta_reduce
  split_ifs <;> first
    | rfl
    | omega
    | (congr 1; omega)
    | (exfalso; omega)

/-- Helper: closed entry formula of the doubly-blocked Toeplitz matrix built
by `conv_filter_as_matrix` (for symmetric use of the two padding reads): the
entry at `(rowIdx, colIdx)` reads the filter at the vertical offset
`colIdx/W + p1 − (rowIdx/BH)·s` and horizontal offset
`colIdx%W + p1 − (rowIdx%BH)·s` when both lie inside the kernel. -/
theorem conv_filter_as_matrix_eq (filter : ℕ → ℕ → ℚ) (Kh Kw H W s p0 p1 : ℕ)
    (hKh : 1 ≤ Kh) (hKw : 1 ≤ Kw) (rowIdx colIdx : ℕ) :
    conv_filter_as_matrix filter Kh Kw H W s p0 p1 rowIdx colIdx =
      if (rowIdx / cfmBlockH Kh H s p1) * s ≤ colIdx / W + p1 ∧
         colIdx / W + p1 - (rowIdx / cfmBlockH Kh H s p1) * s < Kh ∧
         (rowIdx % cfmBlockH Kh H s p1) * s ≤ colIdx % W + p1 ∧
         colIdx % W + p1 - (rowIdx % cfmBlockH Kh H s p1) * s < Kw
      then filter (colIdx / W + p1 - (rowIdx / cfmBlockH Kh H s p1) * s)
                  (colIdx % W + p1 - (rowIdx % cfmBlockH Kh H s p1) * s)
      else 0 := by
  unfold conv_filter_as_matrix
  rw [cfmDSliced_eq Kh s p1 _ _ hKh]
  by_cases hc : (rowIdx / cfmBlockH Kh H s p1) * s ≤ colIdx / W + p1 ∧
      colIdx / W + p1 - (rowIdx / cfmBlockH Kh H s p1) * s < Kh
  · rw [if_pos hc]
    simp only [Nat.add_sub_cancel, Nat.succ_ne_zero, if_false]
    rw [cfmBlock_eq filter Kw s p1 _ _ _ hKw]
    by_cases hc2 : (rowIdx % cfmBlockH Kh H s p1) * s ≤ colIdx % W + p1 ∧
        colIdx % W + p1 - (rowIdx % cfmBlockH Kh H s p1) * s < Kw
    · rw [if_pos hc2, if_pos ⟨hc.1, hc.2, hc2.1, hc2.2⟩]
    · rw [if_neg hc2, if_neg (by tauto)]
  · rw [if_neg hc, if_pos rfl, if_neg (by tauto)]

/-- Helper: the `SumNode` validation loop succeeds exactly when `in_dim` is a
prefix of (or equal to) `in_dim_second`. -/
theorem sumCheck_ok_iff (a b : List ℕ) : sumCheck a b = .ok () ↔ a <+: b := by
  induction a generalizing b with
  | nil => simp [sumCheck]
  | cons x xs ih =>
      cases b with
      | nil => simp [sumCheck]
      | cons y ys =>
          by_cases hxy : x = y
          · subst hxy
            simp [sumCheck, ih, List.cons_prefix_cons]
          · simp [sumCheck, hxy, List.cons_prefix_cons]

/-- Helper: the dot product of row `a·BH + b` of a doubly-blocked Toeplitz
matrix with the row-major flattening of an image equals the padded, strided
2-D correlation of the filter with the image at output position `(a, b)`. -/
theorem conv_filter_dot (filter : ℕ → ℕ → ℚ) (Kh Kw H W s p : ℕ)
    (hKh : 1 ≤ Kh) (hKw : 1 ≤ Kw)
    (z : ℕ → ℚ) (a b : ℕ) (hb : b < cfmBlockH Kh H s p) :
    (∑ cc in Finset.range (H * W),
        conv_filter_as_matrix filter Kh Kw H W s p p (a * cfmBlockH Kh H s p + b) cc * z cc)
      = ∑ di in Finset.range Kh, ∑ dj in Finset.range Kw,
          filter di dj *
            (if p ≤ a * s + di ∧ a * s + di - p < H ∧ p ≤ b * s + dj ∧ b * s + dj - p < W
             then z ((a * s + di - p) * W + (b * s + dj - p)) else 0) := by
  rcases Nat.eq_zero_or_pos W with hW | hW
  · subst hW
    simp
  rcases Nat.eq_zero_or_pos (cfmBlockH Kh H s p) with hBH | hBH
  · omega
  have hdiv : (a * cfmBlockH Kh H s p + b) / cfmBlockH Kh H s p = a := by
    rw [Nat.add_comm, Nat.add_mul_div_right _ _ hBH, Nat.div_eq_of_lt hb]
    omega
  have hmod : (a * cfmBlockH Kh H s p + b) % cfmBlockH Kh H s p = b := by
    rw [Nat.add_comm, Nat.add_mul_mod_self_right, Nat.mod_eq_of_lt hb]
  have hcolD : ∀ jj bb, bb < W → (jj * W + bb) / W = jj := by
    intro jj bb hbb
    rw [Nat.add_comm, Nat.add_mul_div_right _ _ hW, Nat.div_eq_of_lt hbb]
    omega
  have hcolM : ∀ jj bb, bb < W → (jj * W + bb) % W = bb := by
    intro jj bb hbb
    rw [Nat.add_comm, Nat.add_mul_mod_self_right, Nat.mod_eq_of_lt hbb]
  rw [sum_range_mul H W]
  have step1 : ∀ jj ∈ Finset.range H,
      (∑ bb in Finset.range W,
        conv_filter_as_matrix filter Kh Kw H W s p p
          (a * cfmBlockH Kh H s p + b) (jj * W + bb) * z (jj * W + bb))
      = (if a * s ≤ jj + p ∧ jj + p - a * s < Kh
         then ∑ dj in Finset.range Kw,
             (if p ≤ b * s + dj ∧ b * s + dj - p < W
              then filter (jj + p - a * s) dj * z (jj * W + (b * s + dj - p)) else 0)
         else 0) := by
    intro jj _
    by_cases hrow : a * s ≤ jj + p ∧ jj + p - a * s < Kh
    · rw [if_pos hrow]
      have inner : ∀ bb ∈ Finset.range W,
          conv_filter_as_matrix filter Kh Kw H W s p p
            (a * cfmBlockH Kh H s p + b) (jj * W + bb) * z (jj * W + bb)
          = (if b * s ≤ bb + p ∧ bb + p - b * s < Kw
             then filter (jj + p - a * s) (bb + p - b * s) * z (jj * W + bb) else 0) := by
        intro bb hbb
        rw [Finset.mem_range] at hbb
        rw [conv_filter_as_matrix_eq filter Kh Kw H W s p p hKh hKw,
          hdiv, hmod, hcolD jj bb hbb, hcolM jj bb hbb]
        by_cases hcc : b * s ≤ bb + p ∧ bb + p - b * s < Kw
        · rw [if_pos ⟨hrow.1, hrow.2, hcc.1, hcc.2⟩, if_pos hcc]
        · rw [if_neg (by tauto), if_neg hcc, zero_mul]
      rw [Finset.sum_congr rfl inner]
      exact window_reindex
        (fun dj pos => filter (jj + p - a * s) dj * z (jj * W + pos)) Kw W p (b * s)
    · rw [if_neg hrow]
      have inner0 : ∀ bb ∈ Finset.range W,
          conv_filter_as_matrix filter Kh Kw H W s p p
            (a * cfmBlockH Kh H s p + b) (jj * W + bb) * z (jj * W + bb) = 0 := by
        intro bb hbb
        rw [Finset.mem_range] at hbb
        rw [conv_filter_as_matrix_eq filter Kh Kw H W s p p hKh hKw,
          hdiv, hmod, hcolD jj bb hbb, hcolM jj bb hbb, if_neg (by tauto), zero_mul]
      rw [Finset.sum_congr rfl inner0, Finset.sum_const_zero]
  rw [Finset.sum_congr rfl step1]
  have hwin := window_reindex
      (fun di pos => ∑ dj in Finset.range Kw,
        (if p ≤ b * s + dj ∧ b * s + dj - p < W
         then filter di dj * z (pos * W + (b * s + dj - p)) else 0))
      Kh H p (a * s)
  rw [hwin]
  refine Finset.sum_congr rfl (fun di _ => ?_)
  by_cases hrow2 : p ≤ a * s + di ∧ a * s + di - p < H
  · rw [if_pos hrow2]
    refine Finset.sum_congr rfl (fun dj _ => ?_)
    by_cases hcol2 : p ≤ b * s + dj ∧ b * s + dj - p < W
    · rw [if_pos hcol2, if_pos ⟨hrow2.1, hrow2.2, hcol2.1, hcol2.2⟩]
    · rw [if_neg hcol2, if_neg (by tauto), mul_zero]
  · rw [if_neg hrow2]
    have : ∀ dj ∈ Finset.range Kw,
        filter di dj *
          (if p ≤ a * s + di ∧ a * s + di - p < H ∧ p ≤ b * s + dj ∧ b * s + dj - p < W
           then z ((a * s + di - p) * W + (b * s + dj - p)) else 0) = 0 := by
      intro dj _
      rw [if_neg (by tauto), mul_zero]
    rw [Finset.sum_congr rfl this, Finset.sum_const_zero]

/-- Helper: the clipped-window read of the flattened input equals the
`tensorAt` padded read used by the direct convolution. -/
theorem guard_eq_tensorAt (C H W : ℕ) (x : Vec) (ch s p a b di dj : ℕ) :
    (if p ≤ a * s + di ∧ a * s + di - p < H ∧ p ≤ b * s + dj ∧ b * s + dj - p < W
     then x (((a * s + di - p) * W + (b * s + dj - p)) * C + ch) else 0)
      = tensorAt C H W x ch ((a * s + di : ℤ) - p) ((b * s + dj : ℤ) - p) := by
  unfold tensorAt
  by_cases h : p ≤ a * s + di ∧ a * s + di - p < H ∧ p ≤ b * s + dj ∧ b * s + dj - p < W
  · have e1 : ((a * s + di : ℤ) - p).toNat = a * s + di - p := by omega
    have e2 : ((b * s + dj : ℤ) - p).toNat = b * s + dj - p := by omega
    rw [if_pos h, if_pos (by push_cast; omega), e1, e2]
  · rw [if_neg h, if_neg (by push_cast; omega)]

/-- Helper (the core of claim C4): for a good convolution layer, row
`a·outC + b` of filter `f`'s stacked Toeplitz matrix dotted with the
channel-interleaved flattened input equals the direct convolution at output
position `(a, b)` of filter `f`. -/
theorem get_weights_dot (nd : ConvNodeData) (hg : goodConv nd) (x : Vec)
    (f a b : ℕ) (hb : b < convOutC nd) :
    (∑ col in Finset.range (fcMatColCount nd),
        get_weights_as_fc_matrices nd f (a * convOutC nd + b) col * x col)
      = direct_conv nd x f a b := by
  obtain ⟨hs12, hs0, hp1, hp2, hp3, hdil, hHp, hWp, hsq, hHK, hWK, hKh, hKw, hC⟩ := hg
  have hd1 : nd.dilation.1 = 1 := by rw [hdil]
  have hd2 : nd.dilation.2 = 1 := by rw [hdil]
  have hBHC : cfmBlockH nd.Kh nd.H nd.stride.1 nd.padding.1 = convOutC nd := by
    unfold cfmBlockH convOutC
    rw [← hp1, ← hp3, hd2, ← hs12]
    congr 2
    omega
  have hBHR : cfmBlockH nd.Kh nd.H nd.stride.1 nd.padding.1 = convOutR nd := by
    unfold cfmBlockH convOutR
    rw [← hp2, hd1]
    congr 2
    omega
  have hcols : fcMatColCount nd = (nd.H * nd.W) * nd.C := by
    unfold fcMatColCount cfmColCount
    rw [← hp1]
    have e : nd.H + 2 * nd.padding.1 - 2 * nd.padding.1 = nd.H := by omega
    rw [e, Nat.mul_comm nd.W nd.H, Nat.mul_comm nd.C (nd.H * nd.W)]
  have hb2 : b < cfmBlockH nd.Kh nd.H nd.stride.1 nd.padding.1 := by
    rw [hBHC]; exact hb
  have hchm : ∀ cc ch, ch < nd.C → (cc * nd.C + ch) % nd.C = ch := by
    intro cc ch h
    rw [Nat.add_comm, Nat.add_mul_mod_self_right ch cc nd.C, Nat.mod_eq_of_lt h]
  have hchd : ∀ cc ch, ch < nd.C → (cc * nd.C + ch) / nd.C = cc := by
    intro cc ch h
    rw [Nat.add_comm, Nat.add_mul_div_right ch cc (by omega : 0 < nd.C),
      Nat.div_eq_of_lt h]
    omega
  have step : ∀ cc ∈ Finset.range (nd.H * nd.W),
      (∑ ch in Finset.range nd.C,
        get_weights_as_fc_matrices nd f (a * convOutC nd + b) (cc * nd.C + ch) *
          x (cc * nd.C + ch))
      = ∑ ch in Finset.range nd.C,
          conv_filter_as_matrix (nd.weight f ch) nd.Kh nd.Kw nd.H nd.W nd.stride.1
            nd.padding.1 nd.padding.1
            (a * cfmBlockH nd.Kh nd.H nd.stride.1 nd.padding.1 + b) cc *
            x (cc * nd.C + ch) := by
    intro cc _
    refine Finset.sum_congr rfl (fun ch hch => ?_)
    rw [Finset.mem_range] at hch
    unfold get_weights_as_fc_matrices
    rw [hchm cc ch hch, hchd cc ch hch, ← hp1, ← hBHC]
  calc (∑ col in Finset.range (fcMatColCount nd),
          get_weights_as_fc_matrices nd f (a * convOutC nd + b) col * x col)
      = ∑ col in Finset.range ((nd.H * nd.W) * nd.C),
          get_weights_as_fc_matrices nd f (a * convOutC nd + b) col * x col := by
        rw [hcols]
    _ = ∑ cc in Finset.range (nd.H * nd.W), ∑ ch in Finset.range nd.C,
          get_weights_as_fc_matrices nd f (a * convOutC nd + b) (cc * nd.C + ch) *
            x (cc * nd.C + ch) :=
        sum_range_mul (nd.H * nd.W) nd.C _
    _ = ∑ cc in Finset.range (nd.H * nd.W), ∑ ch in Finset.range nd.C,
          conv_filter_as_matrix (nd.weight f ch) nd.Kh nd.Kw nd.H nd.W nd.stride.1
            nd.padding.1 nd.padding.1
            (a * cfmBlockH nd.Kh nd.H nd.stride.1 nd.padding.1 + b) cc *
            x (cc * nd.C + ch) :=
        Finset.sum_congr rfl step
    _ = ∑ ch in Finset.range nd.C, ∑ cc in Finset.range (nd.H * nd.W),
          conv_filter_as_matrix (nd.weight f ch) nd.Kh nd.Kw nd.H nd.W nd.stride.1
            nd.padding.1 nd.padding.1
            (a * cfmBlockH nd.Kh nd.H nd.stride.1 nd.padding.1 + b) cc *
            x (cc * nd.C + ch) :=
        Finset.sum_comm
    _ = direct_conv nd x f a b := by
        unfold direct_conv
        refine Finset.sum_congr rfl (fun ch _ => ?_)
        refine Eq.trans (conv_filter_dot (nd.weight f ch) nd.Kh nd.Kw nd.H nd.W
          nd.stride.1 nd.padding.1 hKh hKw (fun cc => x (cc * nd.C + ch)) a b hb2) ?_
        refine Finset.sum_congr rfl
          (fun di _ => Finset.sum_congr rfl (fun dj _ => ?_))
        rw [hd1, hd2, ← hs12, ← hp1]
        simp only [Nat.cast_one, mul_one]
        congr 1
        exact guard_eq_tensorAt nd.C nd.H nd.W x ch nd.stride.1 nd.padding.1 a b di dj

/-- Helper: one unfolding of the `compute_bounds` loop. -/
theorem bmRun_cons (k : ℕ) (lo hi : Vec) (s : BMState) (l : AbsLayer)
    (ls : List AbsLayer) :
    bmRun k lo hi s (l :: ls) = match bmStep k lo hi s l with
      | .ok s2 => bmRun k lo hi s2 ls
      | .error e => .error e := rfl

/-- Helper: the `compute_bounds` loop over an appended layer list. -/
theorem bmRun_append (k : ℕ) (lo hi : Vec) (s : BMState) (xs ys : List AbsLayer) :
    bmRun k lo hi s (xs ++ ys) = match bmRun k lo hi s xs with
      | .ok s2 => bmRun k lo hi s2 ys
      | .error e => .error e := by
  induction xs generalizing s with
  | nil => rfl
  | cons l ls ih =>
      rw [List.cons_append, bmRun_cons, bmRun_cons]
      cases bmStep k lo hi s l with
      | ok s2 => exact ih s2
      | error e => rfl

set_option maxRecDepth 10000 in
/-- Claim C5 — counterexample.  On a network whose only layer is an
unsupported kind with identifier `sigmoid_7`, `compute_bounds` raises the
fixed message of bounds_manager.py line 72, and neither the identifier nor
the kind occurs in that message. -/
theorem C5_counterexample :
    errOf (computeBounds 2 zeroVec oneVecQ
        [AbsLayer.other "sigmoid_7" "AbsSigmoidNode"]) = some unsupportedMsg ∧
    ¬ ("sigmoid_7".toList <:+: unsupportedMsg.toList) ∧
    ¬ ("AbsSigmoidNode".toList <:+: unsupportedMsg.toList) := by
  refine ⟨rfl, ?_, ?_⟩ <;> decide

/-- Claim C5 (amended): whenever `compute_bounds` encounters a layer whose
kind is not FullyConnected, Conv, ReLU or MaxPool (after processing the
layers before it without error), it fails — but with the fixed message
"Currently supporting bounds computation only for Relu and Linear activation
functions", which names neither the offending layer's identifier nor its
kind. -/
theorem C5_unsupported_layer (k : ℕ) (lo hi : Vec) (pre rest : List AbsLayer)
    (id kind : String)
    (hok : isOkE (bmRun k lo hi initBMState pre) = true) :
    computeBounds k lo hi (pre ++ AbsLayer.other id kind :: rest) =
      Except.error unsupportedMsg := by
  unfold computeBounds
  rw [bmRun_append]
  cases h0 : bmRun k lo hi initBMState pre with
  | error e => rw [h0] at hok; simp [isOkE] at hok
  | ok s0 => rfl

/-- Witness for `C5_unsupported_layer`: empty prefix, one unsupported layer. -/
theorem C5_unsupported_layer_witness :
    computeBounds 1 zeroVec oneVecQ
        ([] ++ AbsLayer.other "sig1" "AbsSigmoidNode" :: []) =
      Except.error unsupportedMsg :=
  C5_unsupported_layer 1 zeroVec oneVecQ [] [] "sig1" "AbsSigmoidNode" rfl

/-- Helper: a successful step on a propagating layer (FC, Conv or ReLU)
leaves the state framed on that layer: the four loop locals are set,
`current` equals the activation bounds, and the three dictionaries hold the
same values under the layer's identifier. -/
theorem bmStep_propagating_framed (k : ℕ) (lo hi : Vec) (s : BMState)
    (l : AbsLayer) (s1 : BMState) (hl : l.isPropagating = true)
    (h : bmStep k lo hi s l = .ok s1) :
    ∃ SD SA PR PO, FramedFrom l.ident SD SA PR PO s1 := by
  cases l with
  | fullyConnected id W b outF inF =>
      cases h
      exact ⟨_, _, _, _, rfl, rfl, rfl, rfl, rfl,
        by simp [mapPut, AbsLayer.ident],
        by simp [mapPut, AbsLayer.ident],
        by simp [mapPut, AbsLayer.ident]⟩
  | convolutional id nd =>
      cases h
      exact ⟨_, _, _, _, rfl, rfl, rfl, rfl, rfl,
        by simp [mapPut, AbsLayer.ident],
        by simp [mapPut, AbsLayer.ident],
        by simp [mapPut, AbsLayer.ident]⟩
  | relu id =>
      unfold bmStep at h
      cases hsd : s.sdob with
      | none => rw [hsd] at h; cases h
      | some sd =>
          cases hpre : s.preact with
          | none => rw [hsd, hpre] at h; cases h
          | some pre =>
              rw [hsd, hpre] at h
              cases h
              exact ⟨_, _, _, _, rfl, rfl, rfl, rfl, rfl,
                by simp [mapPut, AbsLayer.ident],
                by simp [mapPut, AbsLayer.ident],
                by simp [mapPut, AbsLayer.ident]⟩
  | maxPool id => simp [AbsLayer.isPropagating] at hl
  | other id kind => simp [AbsLayer.isPropagating] at hl

/-- Helper: a MaxPool step on a framed state succeeds, re-records the same
four values under the MaxPool's identifier, and stays framed on `lid`. -/
theorem bmStep_maxPool_framed (k : ℕ) (lo hi : Vec) (s : BMState) (lid : String)
    (SD SA : SymbolicLinearBounds) (PR PO : Vec × Vec) (mid : String)
    (hf : FramedFrom lid SD SA PR PO s) :
    bmStep k lo hi s (.maxPool mid) =
      .ok ⟨SA, some SD, some SA, some PR, some PO,
           mapPut s.symMap mid (SD, SA), mapPut s.preMap mid PR,
           mapPut s.postMap mid PO⟩ ∧
    FramedFrom lid SD SA PR PO
      ⟨SA, some SD, some SA, some PR, some PO,
       mapPut s.symMap mid (SD, SA), mapPut s.preMap mid PR,
       mapPut s.postMap mid PO⟩ := by
  obtain ⟨h1, h2, h3, h4, h5, h6, h7, h8⟩ := hf
  constructor
  · unfold bmStep
    rw [h1, h2, h3, h4]
  · refine ⟨rfl, rfl, rfl, rfl, rfl, ?_, ?_, ?_⟩
    · show (if lid = mid then some (SD, SA) else s.symMap lid) = some (SD, SA)
      split_ifs
      · rfl
      · exact h6
    · show (if lid = mid then some PR else s.preMap lid) = some PR
      split_ifs
      · rfl
      · exact h7
    · show (if lid = mid then some PO else s.postMap lid) = some PO
      split_ifs
      · rfl
      · exact h8

/-- Helper: running any number of MaxPool layers from a framed state
succeeds and stays framed (each step merely re-records the same values). -/
theorem bmRun_maxpools_framed (k : ℕ) (lo hi : Vec) (lid : String)
    (SD SA : SymbolicLinearBounds) (PR PO : Vec × Vec) :
    ∀ (mps : List AbsLayer), mps.all AbsLayer.isMaxPoolLayer = true →
    ∀ s, FramedFrom lid SD SA PR PO s →
    ∃ s2, bmRun k lo hi s mps = .ok s2 ∧ FramedFrom lid SD SA PR PO s2 := by
  intro mps
  induction mps with
  | nil => exact fun _ s hf => ⟨s, rfl, hf⟩
  | cons m ms ih =>
      intro hall s hf
      rw [List.all_cons, Bool.and_eq_true] at hall
      cases m with
      | maxPool mid =>
          obtain ⟨hstep, hf2⟩ := bmStep_maxPool_framed k lo hi s lid SD SA PR PO mid hf
          obtain ⟨s2, hrun, hf3⟩ := ih hall.2 _ hf2
          refine ⟨s2, ?_, hf3⟩
          rw [bmRun_cons, hstep]
          exact hrun
      | fullyConnected a b c d e => simp [AbsLayer.isMaxPoolLayer] at hall
      | convolutional a b => simp [AbsLayer.isMaxPoolLayer] at hall
      | relu a => simp [AbsLayer.isMaxPoolLayer] at hall
      | other a b => simp [AbsLayer.isMaxPoolLayer] at hall

/-- Claim C10: in a network where an `AbsMaxPoolNode` occurs after a
FullyConnected, Conv or ReLU layer `l` (with only MaxPool layers in
between), and `compute_bounds` processes the layers before the MaxPool
without error, the MaxPool step raises no error, records under the
MaxPool's identifier exactly the symbolic, numeric pre-activation and
numeric post-activation bounds recorded for `l` — the nearest preceding
non-MaxPool layer — and continues propagation with the symbolic bounds it
held before the MaxPool. -/
theorem C10_maxpool_frame (k : ℕ) (lo hi : Vec) (pre mps : List AbsLayer)
    (l : AbsLayer) (mid : String)
    (hl : l.isPropagating = true)
    (hmps : mps.all AbsLayer.isMaxPoolLayer = true)
    (hok : isOkE (bmRun k lo hi initBMState (pre ++ l :: mps)) = true) :
    isOkE (computeBounds k lo hi (pre ++ l :: (mps ++ [AbsLayer.maxPool mid]))) = true ∧
    ∀ s1 s2,
      bmRun k lo hi initBMState (pre ++ l :: mps) = .ok s1 →
      computeBounds k lo hi (pre ++ l :: (mps ++ [AbsLayer.maxPool mid])) = .ok s2 →
      s2.current = s1.current ∧
      s2.symMap mid = s1.symMap l.ident ∧
      s2.preMap mid = s1.preMap l.ident ∧
      s2.postMap mid = s1.postMap l.ident := by
  cases h0 : bmRun k lo hi initBMState pre with
  | error e =>
      exfalso
      have hrw : bmRun k lo hi initBMState (pre ++ l :: mps) = .error e := by
        rw [bmRun_append, h0]
      rw [hrw] at hok
      simp [isOkE] at hok
  | ok s0 =>
      cases hst : bmStep k lo hi s0 l with
      | error e =>
          exfalso
          have hrw : bmRun k lo hi initBMState (pre ++ l :: mps) = .error e := by
            rw [bmRun_append, h0]
            show bmRun k lo hi s0 (l :: mps) = Except.error e
            rw [bmRun_cons, hst]
          rw [hrw] at hok
          simp [isOkE] at hok
      | ok s01 =>
          obtain ⟨SD, SA, PR, PO, hf0⟩ :=
            bmStep_propagating_framed k lo hi s0 l s01 hl hst
          obtain ⟨s1, hrun1, hf1⟩ :=
            bmRun_maxpools_framed k lo hi l.ident SD SA PR PO mps hmps s01 hf0
          have hfront : bmRun k lo hi initBMState (pre ++ l :: mps) = .ok s1 := by
            rw [bmRun_append, h0]
            show bmRun k lo hi s0 (l :: mps) = Except.ok s1
            rw [bmRun_cons, hst]
            exact hrun1
          obtain ⟨hstep2, hf2⟩ :=
            bmStep_maxPool_framed k lo hi s1 l.ident SD SA PR PO mid hf1
          have hfull : computeBounds k lo hi (pre ++ l :: (mps ++ [AbsLayer.maxPool mid]))
              = .ok ⟨SA, some SD, some SA, some PR, some PO,
                    mapPut s1.symMap mid (SD, SA), mapPut s1.preMap mid PR,
                    mapPut s1.postMap mid PO⟩ := by
            unfold computeBounds
            rw [bmRun_append, h0]
            show bmRun k lo hi s0 (l :: (mps ++ [AbsLayer.maxPool mid])) = _
            rw [bmRun_cons, hst]
            show bmRun k lo hi s01 (mps ++ [AbsLayer.maxPool mid]) = _
            rw [bmRun_append, hrun1]
            show bmRun k lo hi s1 [AbsLayer.maxPool mid] = _
            rw [bmRun_cons, hstep2]
            rfl
          obtain ⟨g1, g2, g3, g4, g5, g6, g7, g8⟩ := hf1
          refine ⟨by rw [hfull]; rfl, ?_⟩
          intro s1' s2' hh1 hh2
          rw [hfront] at hh1
          injection hh1 with hh1
          subst hh1
          rw [hfull] at hh2
          injection hh2 with hh2
          subst hh2
          refine ⟨g5.symm, ?_, ?_, ?_⟩
          · show mapPut s1.symMap mid (SD, SA) mid = s1.symMap l.ident
            rw [g6]
            unfold mapPut
            rw [if_pos rfl]
          · show mapPut s1.preMap mid PR mid = s1.preMap l.ident
            rw [g7]
            unfold mapPut
            rw [if_pos rfl]
          · show mapPut s1.postMap mid PO mid = s1.postMap l.ident
            rw [g8]
            unfold mapPut
            rw [if_pos rfl]

/-- Witness for `C10_maxpool_frame`: a FullyConnected layer followed by one
MaxPool layer. -/
theorem C10_maxpool_frame_witness :
    isOkE (computeBounds 1 zeroVec oneVecQ
      ([] ++ AbsLayer.fullyConnected "f1" idMat zeroVec 1 1 ::
        ([] ++ [AbsLayer.maxPool "mp1"]))) = true :=
  (C10_maxpool_frame 1 zeroVec oneVecQ [] []
    (AbsLayer.fullyConnected "f1" idMat zeroVec 1 1) "mp1" rfl rfl rfl).1

/-- Claim C4 — counterexample.  For the `(1, 2, 3)`-input layer `cexConv`
(1×1 kernel, stride 1, no padding, groups 1) the stacked Toeplitz matrix has
4 rows where the output feature map has `1·2·3 = 6` entries, so the product
cannot be reshaped to `(F, out_rows, out_cols)`; moreover at flat output
position 2 the matrix row reads pixel `(1, 0)` instead of `(0, 2)`: on the
indicator input `cexX` the product gives 0 while the direct convolution
gives 1. -/
theorem C4_counterexample :
    fcMatRowCount cexConv = 4 ∧
    cexConv.F * (convOutR cexConv * convOutC cexConv) = 6 ∧
    (∑ col in Finset.range (fcMatColCount cexConv),
        get_weights_as_fc_matrices cexConv 0 (0 * convOutC cexConv + 2) col * cexX col) = 0 ∧
    direct_conv cexConv cexX 0 0 2 = 1 := by
  refine ⟨by decide, by decide, ?_, ?_⟩
  · norm_num [cexConv, cexX, fcMatColCount, cfmColCount, get_weights_as_fc_matrices,
      conv_filter_as_matrix, cfmDSliced, cfmDIdx, cfmBlock, cfmCol, cfmPadRow,
      cfmBlockH, toeplitzE, convOutC, Finset.sum_range_succ]
  · norm_num [cexConv, cexX, direct_conv, tensorAt, Finset.sum_range_succ]
    decide

/-- Claim C4 (amended): for every `ConvNode` over a 2-D input of shape
`(C, H, W)` with `groups = 1` **whose two stride components are equal, whose
four padding values are equal, whose dilation is 1, whose kernel fits in the
input, and whose output feature map is square (`H − Kh = W − Kw`)**, the
stacked Toeplitz matrices have exactly `out_rows · out_cols` rows, and
multiplying them by the channel-interleaved flattening of the input and
reshaping to `(F, out_rows, out_cols)` equals the direct convolution of the
input with the layer's weight, stride and padding (row `a·out_cols + b` of
matrix `f` holding output entry `(f, a, b)`). -/
theorem C4_conv_fc_equivalence (nd : ConvNodeData) (hg : goodConv nd)
    (x : Vec) (f a b : ℕ) (hf : f < nd.F) (ha : a < convOutR nd)
    (hb : b < convOutC nd) :
    fcMatRowCount nd = convOutR nd * convOutC nd ∧
    (∑ col in Finset.range (fcMatColCount nd),
        get_weights_as_fc_matrices nd f (a * convOutC nd + b) col * x col)
      = direct_conv nd x f a b := by
  refine ⟨?_, get_weights_dot nd hg x f a b hb⟩
  obtain ⟨hs12, hs0, hp1, hp2, hp3, hdil, hHp, hWp, hsq, hHK, hWK, hKh, hKw, hC⟩ := hg
  have hd1 : nd.dilation.1 = 1 := by rw [hdil]
  have hd2 : nd.dilation.2 = 1 := by rw [hdil]
  have hBHC : cfmBlockH nd.Kh nd.H nd.stride.1 nd.padding.1 = convOutC nd := by
    unfold cfmBlockH convOutC
    rw [← hp1, ← hp3, hd2, ← hs12]
    congr 2
    omega
  have hBHR : cfmBlockH nd.Kh nd.H nd.stride.1 nd.padding.1 = convOutR nd := by
    unfold cfmBlockH convOutR
    rw [← hp2, hd1]
    congr 2
    omega
  unfold fcMatRowCount cfmRowCount
  rw [← hp1]
  show cfmBlockH nd.Kh nd.H nd.stride.1 nd.padding.1 *
      cfmBlockH nd.Kh nd.H nd.stride.1 nd.padding.1 = convOutR nd * convOutC nd
  have hRC : convOutR nd = convOutC nd := hBHR.symm.trans hBHC
  rw [hRC, ← hBHC]

/-- Witness for `C4_conv_fc_equivalence`: the good layer `goodConvEx`
(2×2 all-ones kernel on a 3×3 input) on the all-ones input, output `(0,0,0)`. -/
theorem C4_conv_fc_equivalence_witness :
    fcMatRowCount goodConvEx = convOutR goodConvEx * convOutC goodConvEx ∧
    (∑ col in Finset.range (fcMatColCount goodConvEx),
        get_weights_as_fc_matrices goodConvEx 0 (0 * convOutC goodConvEx + 0) col *
          oneVecQ col)
      = direct_conv goodConvEx oneVecQ 0 0 0 :=
  C4_conv_fc_equivalence goodConvEx
    ⟨rfl, by decide, rfl, rfl, rfl, rfl, by decide, by decide, rfl,
     by decide, by decide, by decide, by decide, by decide⟩
    oneVecQ 0 0 0 (by decide) (by decide) (by decide)

/-- Helper: the sign-separated combination of an interval brackets the
product (scalar form). -/
theorem posneg_scalar (w lo' hi' t : ℚ) (h1 : lo' ≤ t) (h2 : t ≤ hi') :
    max w 0 * lo' + min w 0 * hi' ≤ w * t ∧
    w * t ≤ max w 0 * hi' + min w 0 * lo' := by
  constructor
  · have hp := mul_le_mul_of_nonneg_left h1 (le_max_right w 0)
    have hm := mul_le_mul_of_nonpos_left h2 (min_le_right w 0)
    calc max w 0 * lo' + min w 0 * hi'
        ≤ max w 0 * t + min w 0 * t := add_le_add hp hm
      _ = w * t := by rw [← add_mul, max_add_min, add_zero]
  · have hp := mul_le_mul_of_nonneg_left h2 (le_max_right w 0)
    have hm := mul_le_mul_of_nonpos_left h1 (min_le_right w 0)
    calc w * t = max w 0 * t + min w 0 * t := by rw [← add_mul, max_add_min, add_zero]
      _ ≤ max w 0 * hi' + min w 0 * lo' := add_le_add hp hm

/-- Helper: the sign-separated combination of componentwise intervals
brackets a weighted sum (the single device behind both the concretization
and the affine transformer). -/
theorem signed_combination_le (w Lv Uv v : ℕ → ℚ) (p : ℕ)
    (hv : ∀ j, j < p → Lv j ≤ v j ∧ v j ≤ Uv j) :
    ((∑ j in Finset.range p, (max (w j) 0 * Lv j + min (w j) 0 * Uv j))
      ≤ ∑ j in Finset.range p, w j * v j) ∧
    ((∑ j in Finset.range p, w j * v j)
      ≤ ∑ j in Finset.range p, (max (w j) 0 * Uv j + min (w j) 0 * Lv j)) := by
  constructor
  · refine Finset.sum_le_sum (fun j hj => ?_)
    rw [Finset.mem_range] at hj
    exact (posneg_scalar (w j) (Lv j) (Uv j) (v j) (hv j hj).1 (hv j hj).2).1
  · refine Finset.sum_le_sum (fun j hj => ?_)
    rw [Finset.mem_range] at hj
    exact (posneg_scalar (w j) (Lv j) (Uv j) (v j) (hv j hj).1 (hv j hj).2).2

/-- Helper: concretization of an affine map over the box is sound
(spec §4.3, the semantics of `compute_min_values` / `compute_max_values`). -/
theorem lf_concretization_sound (F : LinearFunctions) (lo hi x : Vec) (k : ℕ)
    (hx : inBox lo hi x k) (i : ℕ) :
    lfMinValues F lo hi k i ≤ evalLF F x k i ∧
    evalLF F x k i ≤ lfMaxValues F lo hi k i := by
  have h := signed_combination_le (fun j => F.matrix i j) lo hi x k (fun j hj => hx j hj)
  exact ⟨add_le_add_right h.1 _, add_le_add_right h.2 _⟩

/-- Helper: the identity symbolic bounds evaluate to the input itself. -/
theorem evalLF_id (x : Vec) (k i : ℕ) (hik : i < k) :
    evalLF ⟨idMat, zeroVec⟩ x k i = x i := by
  unfold evalLF idMat zeroVec
  rw [add_zero]
  rw [Finset.sum_eq_single i]
  · show (if i = i then (1 : ℚ) else 0) * x i = x i
    rw [if_pos rfl, one_mul]
  · intro j _ hj
    show (if i = j then (1 : ℚ) else 0) * x j = 0
    rw [if_neg (Ne.symm hj), zero_mul]
  · intro h
    exact absurd (Finset.mem_range.mpr hik) h

/-- Helper: the ReLU of a vector is idempotent. -/
theorem reluVec_idem (z : Vec) : reluVec (reluVec z) = reluVec z := by
  funext i
  unfold reluVec
  exact max_eq_left (le_max_right _ _)

/-- Helper: evaluating one output row of the sign-split affine transformer
equals the sign-weighted combination of the evaluated input bounds. -/
theorem eval_signed_row (wp wm : ℕ → ℚ) (β : ℚ) (ML MU : Mat) (qL qU : Vec)
    (p k : ℕ) (x : Vec) :
    (∑ t in Finset.range k,
        ((∑ j in Finset.range p, wp j * ML j t) +
         (∑ j in Finset.range p, wm j * MU j t)) * x t)
      + ((∑ j in Finset.range p, wp j * qL j) +
         (∑ j in Finset.range p, wm j * qU j) + β)
    = (∑ j in Finset.range p,
        (wp j * ((∑ t in Finset.range k, ML j t * x t) + qL j) +
         wm j * ((∑ t in Finset.range k, MU j t * x t) + qU j))) + β := by
  have hA : (∑ t in Finset.range k, (∑ j in Finset.range p, wp j * ML j t) * x t)
      = ∑ j in Finset.range p, wp j * (∑ t in Finset.range k, ML j t * x t) := by
    simp only [Finset.sum_mul]
    rw [Finset.sum_comm]
    simp only [Finset.mul_sum]
    exact Finset.sum_congr rfl fun j _ => Finset.sum_congr rfl fun t _ => by ring
  have hB : (∑ t in Finset.range k, (∑ j in Finset.range p, wm j * MU j t) * x t)
      = ∑ j in Finset.range p, wm j * (∑ t in Finset.range k, MU j t * x t) := by
    simp only [Finset.sum_mul]
    rw [Finset.sum_comm]
    simp only [Finset.mul_sum]
    exact Finset.sum_congr rfl fun j _ => Finset.sum_congr rfl fun t _ => by ring
  simp only [add_mul, Finset.sum_add_distrib]
  rw [hA, hB]
  simp only [mul_add, Finset.sum_add_distrib]
  ring

/-- Helper: evaluated lower bound of the dense transformer output. -/
theorem evalLF_dense_lower (W : Mat) (b : Vec) (p : ℕ) (S : SymbolicLinearBounds)
    (x : Vec) (k i : ℕ) :
    evalLF (compute_dense_output_bounds W b p S).lower x k i
      = (∑ j in Finset.range p,
          (max (W i j) 0 * evalLF S.lower x k j +
           min (W i j) 0 * evalLF S.upper x k j)) + b i :=
  eval_signed_row (fun j => max (W i j) 0) (fun j => min (W i j) 0) (b i)
    S.lower.matrix S.upper.matrix S.lower.offset S.upper.offset p k x

/-- Helper: evaluated upper bound of the dense transformer output. -/
theorem evalLF_dense_upper (W : Mat) (b : Vec) (p : ℕ) (S : SymbolicLinearBounds)
    (x : Vec) (k i : ℕ) :
    evalLF (compute_dense_output_bounds W b p S).upper x k i
      = (∑ j in Finset.range p,
          (max (W i j) 0 * evalLF S.upper x k j +
           min (W i j) 0 * evalLF S.lower x k j)) + b i :=
  eval_signed_row (fun j => max (W i j) 0) (fun j => min (W i j) 0) (b i)
    S.upper.matrix S.lower.matrix S.upper.offset S.lower.offset p k x

/-- Helper: evaluated lower bound of the convolution transformer output. -/
theorem evalLF_conv_lower (nd : ConvNodeData) (S : SymbolicLinearBounds)
    (x : Vec) (k row : ℕ) :
    evalLF (propagate_convolution_bounds nd S).lower x k row
      = (∑ j in Finset.range (fcMatColCount nd),
          (max (get_weights_as_fc_matrices nd (row % nd.F) (row / nd.F) j) 0 *
             evalLF S.lower x k j +
           min (get_weights_as_fc_matrices nd (row % nd.F) (row / nd.F) j) 0 *
             evalLF S.upper x k j))
        + (match nd.bias with | some b => b (row % nd.F) | none => 0) :=
  eval_signed_row
    (fun j => max (get_weights_as_fc_matrices nd (row % nd.F) (row / nd.F) j) 0)
    (fun j => min (get_weights_as_fc_matrices nd (row % nd.F) (row / nd.F) j) 0)
    (match nd.bias with | some b => b (row % nd.F) | none => 0)
    S.lower.matrix S.upper.matrix S.lower.offset S.upper.offset (fcMatColCount nd) k x

/-- Helper: evaluated upper bound of the convolution transformer output. -/
theorem evalLF_conv_upper (nd : ConvNodeData) (S : SymbolicLinearBounds)
    (x : Vec) (k row : ℕ) :
    evalLF (propagate_convolution_bounds nd S).upper x k row
      = (∑ j in Finset.range (fcMatColCount nd),
          (max (get_weights_as_fc_matrices nd (row % nd.F) (row / nd.F) j) 0 *
             evalLF S.upper x k j +
           min (get_weights_as_fc_matrices nd (row % nd.F) (row / nd.F) j) 0 *
             evalLF S.lower x k j))
        + (match nd.bias with | some b => b (row % nd.F) | none => 0) :=
  eval_signed_row
    (fun j => max (get_weights_as_fc_matrices nd (row % nd.F) (row / nd.F) j) 0)
    (fun j => min (get_weights_as_fc_matrices nd (row % nd.F) (row / nd.F) j) 0)
    (match nd.bias with | some b => b (row % nd.F) | none => 0)
    S.upper.matrix S.lower.matrix S.upper.offset S.lower.offset (fcMatColCount nd) k x

/-- Helper: the source's lower ReLU envelope coefficients under-approximate
the ReLU: if `l ≤ Lx ≤ u` and `Lx ≤ v`, then `k·Lx + b ≤ max v 0` for
`(k, b) = get_lin_lower_bound_coefficients l u`. -/
theorem relu_lower_coeff_sound (l u Lx v : ℚ) (hl : l ≤ Lx) (hu : Lx ≤ u)
    (hLv : Lx ≤ v) :
    (get_lin_lower_bound_coefficients l u).1 * Lx +
      (get_lin_lower_bound_coefficients l u).2 ≤ max v 0 := by
  unfold get_lin_lower_bound_coefficients
  by_cases h1 : 0 ≤ l
  · rw [if_pos h1]
    show 1 * Lx + 0 ≤ max v 0
    rw [one_mul, add_zero]
    exact le_trans hLv (le_max_left v 0)
  · rw [if_neg h1]
    by_cases h2 : u ≤ 0
    · rw [if_pos h2]
      show 0 * Lx + 0 ≤ max v 0
      rw [zero_mul, add_zero]
      exact le_max_right v 0
    · rw [if_neg h2]
      push_neg at h1 h2
      show u / (u - l) * Lx + 0 ≤ max v 0
      rw [add_zero]
      have hul : (0 : ℚ) < u - l := by linarith
      have hk0 : 0 ≤ u / (u - l) := div_nonneg h2.le hul.le
      have hk1 : u / (u - l) ≤ 1 := (div_le_one hul).mpr (by linarith)
      rcases le_or_lt Lx 0 with hLx | hLx
      · have : u / (u - l) * Lx ≤ 0 := mul_nonpos_of_nonneg_of_nonpos hk0 hLx
        exact le_trans this (le_max_right v 0)
      · have h3 : u / (u - l) * Lx ≤ 1 * Lx :=
          mul_le_mul_of_nonneg_right hk1 hLx.le
        rw [one_mul] at h3
        exact le_trans h3 (le_trans hLv (le_max_left v 0))

/-- Helper: the source's upper ReLU envelope coefficients over-approximate
the ReLU: if `l ≤ Ux ≤ u` and `v ≤ Ux`, then `max v 0 ≤ k·Ux + b` for
`(k, b) = get_lin_upper_bound_coefficients l u`. -/
theorem relu_upper_coeff_sound (l u Ux v : ℚ) (hl : l ≤ Ux) (hu : Ux ≤ u)
    (hvU : v ≤ Ux) :
    max v 0 ≤ (get_lin_upper_bound_coefficients l u).1 * Ux +
      (get_lin_upper_bound_coefficients l u).2 := by
  unfold get_lin_upper_bound_coefficients
  by_cases h1 : 0 ≤ l
  · rw [if_pos h1]
    show max v 0 ≤ 1 * Ux + 0
    rw [one_mul, add_zero]
    exact max_le hvU (le_trans h1 hl)
  · rw [if_neg h1]
    by_cases h2 : u ≤ 0
    · rw [if_pos h2]
      show max v 0 ≤ 0 * Ux + 0
      rw [zero_mul, add_zero]
      exact max_le (by linarith) le_rfl
    · rw [if_neg h2]
      push_neg at h1 h2
      show max v 0 ≤ u / (u - l) * Ux + -(u / (u - l)) * l
      have hul : (0 : ℚ) < u - l := by linarith
      have hne : u - l ≠ 0 := ne_of_gt hul
      have hkey : ∀ z, l ≤ z → z ≤ u →
          max z 0 ≤ u / (u - l) * z + -(u / (u - l)) * l := by
        intro z hz1 hz2
        have hform : u / (u - l) * z + -(u / (u - l)) * l = u * (z - l) / (u - l) := by
          field_simp
          ring
        rw [hform]
        rcases le_or_lt z 0 with hz | hz
        · rw [max_eq_right hz]
          exact div_nonneg (by nlinarith) hul.le
        · rw [max_eq_left hz.le]
          rw [le_div_iff hul]
          nlinarith
      have hmono : max v 0 ≤ max Ux 0 := max_le_max hvU le_rfl
      exact le_trans hmono (hkey Ux hl hu)

/-- Helper: evaluated lower bound of the ReLU transformer output: the lower
equation scaled row-wise by the coefficients drawn from the lower equation's
concretized corners. -/
theorem evalLF_relu_lower (S : SymbolicLinearBounds) (lo hi x : Vec) (k i : ℕ) :
    evalLF (compute_relu_output_bounds S lo hi k).lower x k i
      = (get_lin_lower_bound_coefficients (lfMinValues S.lower lo hi k i)
           (lfMaxValues S.lower lo hi k i)).1 * evalLF S.lower x k i
        + (get_lin_lower_bound_coefficients (lfMinValues S.lower lo hi k i)
           (lfMaxValues S.lower lo hi k i)).2 := by
  show (∑ t in Finset.range k,
      (S.lower.matrix i t *
        (get_lin_lower_bound_coefficients (lfMinValues S.lower lo hi k i)
          (lfMaxValues S.lower lo hi k i)).1) * x t)
    + (S.lower.offset i *
        (get_lin_lower_bound_coefficients (lfMinValues S.lower lo hi k i)
          (lfMaxValues S.lower lo hi k i)).1 +
       (get_lin_lower_bound_coefficients (lfMinValues S.lower lo hi k i)
          (lfMaxValues S.lower lo hi k i)).2) = _
  have e : (∑ t in Finset.range k,
      (S.lower.matrix i t *
        (get_lin_lower_bound_coefficients (lfMinValues S.lower lo hi k i)
          (lfMaxValues S.lower lo hi k i)).1) * x t)
      = (get_lin_lower_bound_coefficients (lfMinValues S.lower lo hi k i)
          (lfMaxValues S.lower lo hi k i)).1 *
        ∑ t in Finset.range k, S.lower.matrix i t * x t := by
    rw [Finset.mul_sum]
    exact Finset.sum_congr rfl (fun t _ => by ring)
  rw [e]
  unfold evalLF
  ring

/-- Helper: evaluated upper bound of the ReLU transformer output. -/
theorem evalLF_relu_upper (S : SymbolicLinearBounds) (lo hi x : Vec) (k i : ℕ) :
    evalLF (compute_relu_output_bounds S lo hi k).upper x k i
      = (get_lin_upper_bound_coefficients (lfMinValues S.upper lo hi k i)
           (lfMaxValues S.upper lo hi k i)).1 * evalLF S.upper x k i
        + (get_lin_upper_bound_coefficients (lfMinValues S.upper lo hi k i)
           (lfMaxValues S.upper lo hi k i)).2 := by
  show (∑ t in Finset.range k,
      (S.upper.matrix i t *
        (get_lin_upper_bound_coefficients (lfMinValues S.upper lo hi k i)
          (lfMaxValues S.upper lo hi k i)).1) * x t)
    + (S.upper.offset i *
        (get_lin_upper_bound_coefficients (lfMinValues S.upper lo hi k i)
          (lfMaxValues S.upper lo hi k i)).1 +
       (get_lin_upper_bound_coefficients (lfMinValues S.upper lo hi k i)
          (lfMaxValues S.upper lo hi k i)).2) = _
  have e : (∑ t in Finset.range k,
      (S.upper.matrix i t *
        (get_lin_upper_bound_coefficients (lfMinValues S.upper lo hi k i)
          (lfMaxValues S.upper lo hi k i)).1) * x t)
      = (get_lin_upper_bound_coefficients (lfMinValues S.upper lo hi k i)
          (lfMaxValues S.upper lo hi k i)).1 *
        ∑ t in Finset.range k, S.upper.matrix i t * x t := by
    rw [Finset.mul_sum]
    exact Finset.sum_congr rfl (fun t _ => by ring)
  rw [e]
  unfold evalLF
  ring

/-- Helper: soundness of the dense-layer step: the transformed bounds
sandwich `W·v + b` whenever the input bounds sandwich `v`. -/
theorem dense_bounds_sound (W : Mat) (b : Vec) (p k : ℕ)
    (S : SymbolicLinearBounds) (x v : Vec)
    (hv : ∀ j, j < p → evalLF S.lower x k j ≤ v j ∧ v j ≤ evalLF S.upper x k j)
    (i : ℕ) :
    evalLF (compute_dense_output_bounds W b p S).lower x k i
        ≤ (∑ j in Finset.range p, W i j * v j) + b i ∧
    (∑ j in Finset.range p, W i j * v j) + b i
        ≤ evalLF (compute_dense_output_bounds W b p S).upper x k i := by
  rw [evalLF_dense_lower, evalLF_dense_upper]
  have h := signed_combination_le (fun j => W i j) (fun j => evalLF S.lower x k j)
      (fun j => evalLF S.upper x k j) v p hv
  exact ⟨add_le_add_right h.1 _, add_le_add_right h.2 _⟩

/-- Helper: soundness of the convolution-layer step (using the Toeplitz
equivalence): the transformed bounds sandwich the true convolution value. -/
theorem conv_bounds_sound (nd : ConvNodeData) (hg : goodConv nd) (k : ℕ)
    (S : SymbolicLinearBounds) (x v : Vec)
    (hv : ∀ j, j < fcMatColCount nd →
      evalLF S.lower x k j ≤ v j ∧ v j ≤ evalLF S.upper x k j)
    (row : ℕ) :
    evalLF (propagate_convolution_bounds nd S).lower x k row
        ≤ convLayerValue nd v row ∧
    convLayerValue nd v row
        ≤ evalLF (propagate_convolution_bounds nd S).upper x k row := by
  rw [evalLF_conv_lower, evalLF_conv_upper]
  have h := signed_combination_le
      (fun t => get_weights_as_fc_matrices nd (row % nd.F) (row / nd.F) t)
      (fun j => evalLF S.lower x k j) (fun j => evalLF S.upper x k j) v
      (fcMatColCount nd) hv
  have houtC : 0 < convOutC nd := Nat.succ_pos _
  have hdot := get_weights_dot nd hg v (row % nd.F) ((row / nd.F) / convOutC nd)
      ((row / nd.F) % convOutC nd) (Nat.mod_lt _ houtC)
  have hrow : ((row / nd.F) / convOutC nd) * convOutC nd +
      (row / nd.F) % convOutC nd = row / nd.F := by
    rw [Nat.mul_comm]
    exact Nat.div_add_mod _ _
  rw [hrow] at hdot
  unfold convLayerValue
  rw [← hdot]
  exact ⟨add_le_add_right h.1 _, add_le_add_right h.2 _⟩

/-- Helper: soundness of the ReLU step: the transformed bounds sandwich the
componentwise ReLU of any value the input bounds sandwich. -/
theorem relu_step_sound (S : SymbolicLinearBounds) (lo hi x : Vec) (k : ℕ)
    (hx : inBox lo hi x k) (z : Vec) (i : ℕ)
    (hzi : evalLF S.lower x k i ≤ z i ∧ z i ≤ evalLF S.upper x k i) :
    evalLF (compute_relu_output_bounds S lo hi k).lower x k i ≤ max (z i) 0 ∧
    max (z i) 0 ≤ evalLF (compute_relu_output_bounds S lo hi k).upper x k i := by
  have hL := lf_concretization_sound S.lower lo hi x k hx i
  have hU := lf_concretization_sound S.upper lo hi x k hx i
  constructor
  · rw [evalLF_relu_lower]
    exact relu_lower_coeff_sound (lfMinValues S.lower lo hi k i)
      (lfMaxValues S.lower lo hi k i) (evalLF S.lower x k i) (z i)
      hL.1 hL.2 hzi.1
  · rw [evalLF_relu_upper]
    exact relu_upper_coeff_sound (lfMinValues S.upper lo hi k i)
      (lfMaxValues S.upper lo hi k i) (evalLF S.upper x k i) (z i)
      hU.1 hU.2 hzi.2

/-- Helper: what a successful FullyConnected step produces. -/
theorem bmStep_fc_spec (k : ℕ) (lo hi : Vec) (s : BMState) (lid : String)
    (W : Mat) (b : Vec) (outF inF : ℕ) (s1 : BMState)
    (h : bmStep k lo hi s (.fullyConnected lid W b outF inF) = .ok s1) :
    s1.current = compute_dense_output_bounds W b inF s.current ∧
    s1.sdob = some (compute_dense_output_bounds W b inF s.current) ∧
    s1.preact.isSome = true ∧
    s1.symMap = mapPut s.symMap lid
      (compute_dense_output_bounds W b inF s.current,
       compute_dense_output_bounds W b inF s.current) := by
  cases h
  exact ⟨rfl, rfl, rfl, rfl⟩

/-- Helper: what a successful Conv step produces. -/
theorem bmStep_conv_spec (k : ℕ) (lo hi : Vec) (s : BMState) (lid : String)
    (nd : ConvNodeData) (s1 : BMState)
    (h : bmStep k lo hi s (.convolutional lid nd) = .ok s1) :
    s1.current = propagate_convolution_bounds nd s.current ∧
    s1.sdob = some (propagate_convolution_bounds nd s.current) ∧
    s1.preact.isSome = true ∧
    s1.symMap = mapPut s.symMap lid
      (propagate_convolution_bounds nd s.current,
       propagate_convolution_bounds nd s.current) := by
  cases h
  exact ⟨rfl, rfl, rfl, rfl⟩

/-- Helper: what a successful ReLU step produces (it requires the locals
`symbolic_dense_output_bounds` and `preactivation_bounds` to be set, and
transforms the former — not `current_input_bounds`). -/
theorem bmStep_relu_spec (k : ℕ) (lo hi : Vec) (s : BMState) (lid : String)
    (s1 : BMState) (h : bmStep k lo hi s (.relu lid) = .ok s1) :
    ∃ SD pre, s.sdob = some SD ∧ s.preact = some pre ∧
      s1.current = compute_relu_output_bounds SD lo hi k ∧
      s1.sdob = some SD ∧
      s1.preact.isSome = true ∧
      s1.symMap = mapPut s.symMap lid (SD, compute_relu_output_bounds SD lo hi k) := by
  unfold bmStep at h
  cases hsd : s.sdob with
  | none => rw [hsd] at h; cases h
  | some sd =>
      cases hpre : s.preact with
      | none => rw [hsd, hpre] at h; cases h
      | some pre =>
          rw [hsd, hpre] at h
          cases h
          exact ⟨sd, pre, rfl, rfl, rfl, rfl, rfl, rfl⟩

/-- Helper: a step never touches dictionary entries other than the one at
the processed layer's identifier. -/
theorem bmStep_symMap_frame (k : ℕ) (lo hi : Vec) (s : BMState) (l : AbsLayer)
    (s1 : BMState) (h : bmStep k lo hi s l = .ok s1) (id : String)
    (hne : l.ident ≠ id) :
    s1.symMap id = s.symMap id := by
  cases l with
  | fullyConnected lid W b outF inF =>
      rw [(bmStep_fc_spec k lo hi s lid W b outF inF s1 h).2.2.2]
      unfold mapPut
      have hne2 : lid ≠ id := hne
      rw [if_neg (Ne.symm hne2)]
  | convolutional lid nd =>
      rw [(bmStep_conv_spec k lo hi s lid nd s1 h).2.2.2]
      unfold mapPut
      have hne2 : lid ≠ id := hne
      rw [if_neg (Ne.symm hne2)]
  | relu lid =>
      obtain ⟨SD, pre, _, _, _, _, _, hmap⟩ := bmStep_relu_spec k lo hi s lid s1 h
      rw [hmap]
      unfold mapPut
      have hne2 : lid ≠ id := hne
      rw [if_neg (Ne.symm hne2)]
  | maxPool lid =>
      unfold bmStep at h
      cases hsd : s.sdob with
      | none => rw [hsd] at h; cases h
      | some sd =>
          cases hsa : s.saob with
          | none => rw [hsd, hsa] at h; cases h
          | some sa =>
              cases hpre : s.preact with
              | none => rw [hsd, hsa, hpre] at h; cases h
              | some pre =>
                  cases hpo : s.postact with
                  | none => rw [hsd, hsa, hpre, hpo] at h; cases h
                  | some po =>
                      rw [hsd, hsa, hpre, hpo] at h
                      cases h
                      show mapPut s.symMap lid (sd, sa) id = s.symMap id
                      unfold mapPut
                      have hne2 : lid ≠ id := hne
                      rw [if_neg (Ne.symm hne2)]
  | other lid kind => cases h

/-- Helper: running the loop over layers none of which carries identifier
`id` leaves the dictionary entry at `id` unchanged. -/
theorem bmRun_symMap_frame (k : ℕ) (lo hi : Vec) :
    ∀ (ls : List AbsLayer) (s s2 : BMState) (id : String),
      bmRun k lo hi s ls = .ok s2 → (∀ l ∈ ls, l.ident ≠ id) →
      s2.symMap id = s.symMap id := by
  intro ls
  induction ls with
  | nil => intro s s2 id h _; cases h; rfl
  | cons l ls ih =>
      intro s s2 id h hne
      rw [bmRun_cons] at h
      cases hst : bmStep k lo hi s l with
      | error e => rw [hst] at h; cases h
      | ok s1 =>
          rw [hst] at h
          have h2 : bmRun k lo hi s1 ls = .ok s2 := h
          rw [ih s1 s2 id h2 (fun l1 hl1 => hne l1 (List.mem_cons_of_mem _ hl1)),
            bmStep_symMap_frame k lo hi s l s1 hst id (hne l (List.mem_cons_self _ _))]

/-- Helper: for a good convolution layer the stacked matrices' column count
equals the flattened input size `C·H·W`. -/
theorem fcMatColCount_good (nd : ConvNodeData) (hg : goodConv nd) :
    fcMatColCount nd = nd.C * (nd.H * nd.W) := by
  obtain ⟨hs12, hs0, hp1, hp2, hp3, hdil, hHp, hWp, hsq, hHK, hWK, hKh, hKw, hC⟩ := hg
  unfold fcMatColCount cfmColCount
  rw [← hp1]
  have e : nd.H + 2 * nd.padding.1 - 2 * nd.padding.1 = nd.H := by omega
  rw [e]
  ring

/-- Helper (the induction behind claim C1): from any loop state sound for
the current true value, a successful run of `compute_bounds` over a
well-formed FC/Conv/ReLU suffix records, for every layer, activation
symbolic bounds that sandwich that layer's true value at `x`. -/
theorem bmRun_sound (k : ℕ) (lo hi x : Vec) (hx : inBox lo hi x k) :
    ∀ (layers : List AbsLayer) (n : ℕ) (v : Vec) (s : BMState),
      wfNet n layers → StateSound k x v n s →
      (layers.map AbsLayer.ident).Nodup →
      ∀ s2, bmRun k lo hi s layers = .ok s2 →
      ∀ idx, idx < layers.length →
        ∃ SD SA,
          s2.symMap ((layers.getD idx (AbsLayer.relu "z")).ident) = some (SD, SA) ∧
          ∀ i, i < (layerOutDims n layers).getD idx 0 →
            evalLF SA.lower x k i ≤ (layerValues v layers).getD idx zeroVec i ∧
            (layerValues v layers).getD idx zeroVec i ≤ evalLF SA.upper x k i := by
  intro layers
  induction layers with
  | nil =>
      intro n v s _ _ _ s2 _ idx hidx
      simp at hidx
  | cons l ls ih =>
      intro n v s hwf hss hnd s2 hrun idx hidx
      rw [bmRun_cons] at hrun
      cases hst : bmStep k lo hi s l with
      | error e => rw [hst] at hrun; cases hrun
      | ok s1 =>
          rw [hst] at hrun
          have hrun2 : bmRun k lo hi s1 ls = .ok s2 := hrun
          rw [List.map_cons, List.nodup_cons] at hnd
          cases l with
          | fullyConnected lid W b outF inF =>
              obtain ⟨hinF, hwf2⟩ := hwf
              subst hinF
              obtain ⟨hcur, hsd1, hpre1, hmap1⟩ :=
                bmStep_fc_spec k lo hi s lid W b outF inF s1 hst
              have curOK : ∀ i, i < outF →
                  evalLF s1.current.lower x k i ≤
                    layerValue (.fullyConnected lid W b outF inF) v i ∧
                  layerValue (.fullyConnected lid W b outF inF) v i ≤
                    evalLF s1.current.upper x k i := by
                intro i _
                rw [hcur]
                exact dense_bounds_sound W b inF k s.current x v
                  (fun j hj => hss.1 j hj) i
              have hss1 : StateSound k x
                  (layerValue (.fullyConnected lid W b outF inF) v) outF s1 := by
                refine ⟨curOK, Or.inr ⟨compute_dense_output_bounds W b inF s.current,
                  layerValue (.fullyConnected lid W b outF inF) v,
                  hsd1, hpre1, ?_, Or.inl rfl⟩⟩
                intro i hi
                have h2 := curOK i hi
                rw [hcur] at h2
                exact h2
              have hne : ∀ l1 ∈ ls, l1.ident ≠
                  (AbsLayer.fullyConnected lid W b outF inF).ident :=
                fun l1 hl1 hc => hnd.1 (hc ▸ List.mem_map_of_mem AbsLayer.ident hl1)
              cases idx with
              | zero =>
                  refine ⟨compute_dense_output_bounds W b inF s.current, s1.current,
                    ?_, ?_⟩
                  · rw [List.getD_cons_zero,
                      bmRun_symMap_frame k lo hi ls s1 s2 _ hrun2 hne, hmap1, hcur]
                    simp [mapPut, AbsLayer.ident]
                  · simp only [layerOutDims, layerValues, List.getD_cons_zero]
                    exact curOK
              | succ j =>
                  have hj : j < ls.length := by
                    simp only [List.length_cons] at hidx
                    omega
                  have hrec := ih outF (layerValue (.fullyConnected lid W b outF inF) v)
                    s1 hwf2 hss1 hnd.2 s2 hrun2 j hj
                  simpa only [layerOutDims, layerValues, List.getD_cons_succ] using hrec
          | convolutional lid nd =>
              obtain ⟨hdim, hgood, hwf2⟩ := hwf
              subst hdim
              obtain ⟨hcur, hsd1, hpre1, hmap1⟩ :=
                bmStep_conv_spec k lo hi s lid nd s1 hst
              have curOK : ∀ i, i < nd.F * (convOutR nd * convOutC nd) →
                  evalLF s1.current.lower x k i ≤
                    layerValue (.convolutional lid nd) v i ∧
                  layerValue (.convolutional lid nd) v i ≤
                    evalLF s1.current.upper x k i := by
                intro i _
                rw [hcur]
                exact conv_bounds_sound nd hgood k s.current x v
                  (fun j hj => hss.1 j (by rw [fcMatColCount_good nd hgood] at hj; exact hj)) i
              have hss1 : StateSound k x (layerValue (.convolutional lid nd) v)
                  (nd.F * (convOutR nd * convOutC nd)) s1 := by
                refine ⟨curOK, Or.inr ⟨propagate_convolution_bounds nd s.current,
                  layerValue (.convolutional lid nd) v,
                  hsd1, hpre1, ?_, Or.inl rfl⟩⟩
                intro i hi
                have h2 := curOK i hi
                rw [hcur] at h2
                exact h2
              have hne : ∀ l1 ∈ ls, l1.ident ≠ (AbsLayer.convolutional lid nd).ident :=
                fun l1 hl1 hc => hnd.1 (hc ▸ List.mem_map_of_mem AbsLayer.ident hl1)
              cases idx with
              | zero =>
                  refine ⟨propagate_convolution_bounds nd s.current, s1.current, ?_, ?_⟩
                  · rw [List.getD_cons_zero,
                      bmRun_symMap_frame k lo hi ls s1 s2 _ hrun2 hne, hmap1, hcur]
                    simp [mapPut, AbsLayer.ident]
                  · simp only [layerOutDims, layerValues, List.getD_cons_zero]
                    exact curOK
              | succ j =>
                  have hj : j < ls.length := by
                    simp only [List.length_cons] at hidx
                    omega
                  have hrec := ih (nd.F * (convOutR nd * convOutC nd))
                    (layerValue (.convolutional lid nd) v) s1 hwf2 hss1 hnd.2 s2 hrun2 j hj
                  simpa only [layerOutDims, layerValues, List.getD_cons_succ] using hrec
          | relu lid =>
              have hwf2 : wfNet n ls := hwf
              obtain ⟨SD, pre, hsd0, hpre0, hcur, hsd1, hpre1, hmap1⟩ :=
                bmStep_relu_spec k lo hi s lid s1 hst
              rcases hss.2 with hnone | ⟨SD0, z, hsd0x, _, hz, hvz⟩
              · rw [hnone] at hsd0; cases hsd0
              rw [hsd0x] at hsd0
              injection hsd0 with hSD
              subst hSD
              have hvz2 : reluVec v = reluVec z := by
                cases hvz with
                | inl h2 => rw [h2]
                | inr h2 => rw [h2, reluVec_idem]
              have curOK : ∀ i, i < n →
                  evalLF s1.current.lower x k i ≤ reluVec z i ∧
                  reluVec z i ≤ evalLF s1.current.upper x k i := by
                intro i hin
                rw [hcur]
                exact relu_step_sound SD0 lo hi x k hx z i (hz i hin)
              have curOK2 : ∀ i, i < n →
                  evalLF s1.current.lower x k i ≤ layerValue (.relu lid) v i ∧
                  layerValue (.relu lid) v i ≤ evalLF s1.current.upper x k i := by
                show ∀ i, i < n →
                  evalLF s1.current.lower x k i ≤ reluVec v i ∧
                  reluVec v i ≤ evalLF s1.current.upper x k i
                rw [hvz2]
                exact curOK
              have hss1 : StateSound k x (layerValue (.relu lid) v) n s1 := by
                refine ⟨curOK2, Or.inr ⟨SD0, z, hsd1, hpre1, hz, Or.inr ?_⟩⟩
                show reluVec v = reluVec z
                exact hvz2
              have hne : ∀ l1 ∈ ls, l1.ident ≠ (AbsLayer.relu lid).ident :=
                fun l1 hl1 hc => hnd.1 (hc ▸ List.mem_map_of_mem AbsLayer.ident hl1)
              cases idx with
              | zero =>
                  refine ⟨SD0, s1.current, ?_, ?_⟩
                  · rw [List.getD_cons_zero,
                      bmRun_symMap_frame k lo hi ls s1 s2 _ hrun2 hne, hmap1, hcur]
                    simp [mapPut, AbsLayer.ident]
                  · simp only [layerOutDims, layerValues, List.getD_cons_zero]
                    exact curOK2
              | succ j =>
                  have hj : j < ls.length := by
                    simp only [List.length_cons] at hidx
                    omega
                  have hrec := ih n (layerValue (.relu lid) v) s1 hwf2 hss1 hnd.2
                    s2 hrun2 j hj
                  simpa only [layerOutDims, layerValues, List.getD_cons_succ] using hrec
          | maxPool lid => exact hwf.elim
          | other lid kind => exact hwf.elim

/-- Claim C1 — counterexample.  On the single-layer network consisting of
the `(1, 2, 3)`-input convolution `cexConv` (a network of FullyConnected,
Conv and ReLU layers) with input box `[0,1]⁶`, the input `cexX` lies in the
box, yet the upper symbolic bound recorded for the layer evaluates to 0 at
component 2 while the true layer value there is 1: the bounds are unsound. -/
theorem C1_counterexample :
    inBox zeroVec oneVecQ cexX 6 ∧
    cexUpperEval = some 0 ∧
    (layerValues cexX [AbsLayer.convolutional "c1" cexConv]).getD 0 zeroVec 2 = 1 ∧
    ¬ ((1 : ℚ) ≤ 0) := by
  refine ⟨?_, ?_, ?_, by norm_num⟩
  · intro j _
    unfold cexX zeroVec oneVecQ
    by_cases h : j = 2 <;> simp [h]
  · norm_num [cexUpperEval, symAt, computeBounds, bmRun, bmStep, initBMState, mapPut,
      propagate_convolution_bounds, fcMatColCount, cfmColCount, get_weights_as_fc_matrices,
      conv_filter_as_matrix, cfmDSliced, cfmDIdx, cfmBlock, cfmCol, cfmPadRow, cfmBlockH,
      toeplitzE, idMat, zeroVec, evalLF, cexConv, cexX,
      Finset.sum_range_succ, Finset.sum_range_zero]
  · norm_num [layerValues, layerValue, convLayerValue, direct_conv, convOutC, convOutR,
      tensorAt, cexConv, cexX, Finset.sum_range_succ]
    decide

/-- Claim C1 (amended): for every network consisting of FullyConnected,
Conv and ReLU layers — the Conv layers having equal stride components, all
four padding values equal, dilation 1, a kernel fitting in the input, and a
square output feature map — with distinct layer identifiers, and every input
`x` in the input box `B₀`, whenever `compute_bounds` completes without
error, the activation symbolic bounds `(L, U)` it records for each layer
satisfy `L(x) ≤ v(x) ≤ U(x)` componentwise, where `v(x)` is the true value
computed at that layer by a concrete forward pass on `x` in exact
arithmetic. -/
theorem C1_bound_propagation_sound (k : ℕ) (lo hi x : Vec)
    (layers : List AbsLayer) (hx : inBox lo hi x k) (hwf : wfNet k layers)
    (hids : (layers.map AbsLayer.ident).Nodup)
    (hok : isOkE (computeBounds k lo hi layers) = true)
    (idx : ℕ) (hidx : idx < layers.length) :
    ∃ SD SA,
      symAt (computeBounds k lo hi layers)
          ((layers.getD idx (AbsLayer.relu "z")).ident) = some (SD, SA) ∧
      ∀ i, i < (layerOutDims k layers).getD idx 0 →
        evalLF SA.lower x k i ≤ (layerValues x layers).getD idx zeroVec i ∧
        (layerValues x layers).getD idx zeroVec i ≤ evalLF SA.upper x k i := by
  cases hrun : computeBounds k lo hi layers with
  | error e => rw [hrun] at hok; simp [isOkE] at hok
  | ok s2 =>
      have hss0 : StateSound k x x k initBMState := by
        refine ⟨?_, Or.inl rfl⟩
        intro i hik
        show evalLF ⟨idMat, zeroVec⟩ x k i ≤ x i ∧ x i ≤ evalLF ⟨idMat, zeroVec⟩ x k i
        rw [evalLF_id x k i hik]
        exact ⟨le_rfl, le_rfl⟩
      have h := bmRun_sound k lo hi x hx layers k x initBMState hwf hss0 hids
        s2 hrun idx hidx
      exact h

/-- Witness for `C1_bound_propagation_sound`: the one-layer identity
FullyConnected network on the box `[0,1]` at the point `1/2`. -/
theorem C1_bound_propagation_sound_witness :
    ∃ SD SA,
      symAt (computeBounds 1 zeroVec oneVecQ
          [AbsLayer.fullyConnected "f1" idMat zeroVec 1 1])
          (([AbsLayer.fullyConnected "f1" idMat zeroVec 1 1].getD 0
            (AbsLayer.relu "z")).ident) = some (SD, SA) ∧
      ∀ i, i < (layerOutDims 1
          [AbsLayer.fullyConnected "f1" idMat zeroVec 1 1]).getD 0 0 →
        evalLF SA.lower halfVec 1 i ≤
          (layerValues halfVec
            [AbsLayer.fullyConnected "f1" idMat zeroVec 1 1]).getD 0 zeroVec i ∧
        (layerValues halfVec
            [AbsLayer.fullyConnected "f1" idMat zeroVec 1 1]).getD 0 zeroVec i ≤
          evalLF SA.upper halfVec 1 i :=
  C1_bound_propagation_sound 1 zeroVec oneVecQ halfVec
    [AbsLayer.fullyConnected "f1" idMat zeroVec 1 1]
    (fun _ _ => ⟨by norm_num [zeroVec, halfVec], by norm_num [halfVec, oneVecQ]⟩)
    ⟨rfl, trivial⟩ (by decide) rfl 0 (by decide)

/-- Claim C2 — counterexample.  At `l = u = 0` both guards `u ≤ 0` and
`l ≥ 0` hold; the claim gives the `u ≤ 0` case precedence, predicting
`(0, 0)`, but the source tests `lower >= 0` first and returns `(1, 0)`. -/
theorem C2_counterexample :
    ((0 : ℚ) ≤ 0) ∧ ((0 : ℚ) ≤ 0) ∧
      get_lin_lower_bound_coefficients 0 0 = (1, 0) ∧
      get_lin_upper_bound_coefficients 0 0 = (1, 0) ∧
      ((1 : ℚ), (0 : ℚ)) ≠ (0, 0) := by decide

/-- Claim C2 (amended): for a neuron with concretized pre-activation bounds
`l ≤ u`, the ReLU transformer returns for the lower envelope `(1,0)` if
`l ≥ 0`, else `(0,0)` if `u ≤ 0`, else `(u/(u−l), 0)`; and for the upper
envelope `(1,0)` if `l ≥ 0`, else `(0,0)` if `u ≤ 0`, else
`(u/(u−l), −u·l/(u−l))` — the `l ≥ 0` case taking precedence when both
`l ≥ 0` and `u ≤ 0` hold. -/
theorem C2_relu_envelope_cases (l u : ℚ) (h : l ≤ u) :
    (0 ≤ l → get_lin_lower_bound_coefficients l u = (1, 0) ∧
             get_lin_upper_bound_coefficients l u = (1, 0)) ∧
    (u ≤ 0 → l < 0 → get_lin_lower_bound_coefficients l u = (0, 0) ∧
             get_lin_upper_bound_coefficients l u = (0, 0)) ∧
    (l < 0 → 0 < u →
      get_lin_lower_bound_coefficients l u = (u / (u - l), 0) ∧
      get_lin_upper_bound_coefficients l u = (u / (u - l), -(u * l) / (u - l))) := by
  refine ⟨fun hl => ?_, fun hu hl => ?_, fun hl hu => ?_⟩
  · simp [get_lin_lower_bound_coefficients, get_lin_upper_bound_coefficients, hl]
  · simp [get_lin_lower_bound_coefficients, get_lin_upper_bound_coefficients,
      not_le.mpr hl, hu]
  · have h1 : ¬ (0 ≤ l) := not_le.mpr hl
    have h2 : ¬ (u ≤ 0) := not_le.mpr hu
    unfold get_lin_lower_bound_coefficients get_lin_upper_bound_coefficients
    rw [if_neg h1, if_neg h2, if_neg h1, if_neg h2]
    refine ⟨rfl, ?_⟩
    rw [Prod.mk.injEq]
    exact ⟨rfl, by rw [neg_mul, neg_div, div_mul_eq_mul_div]⟩

/-- Witness for `C2_relu_envelope_cases` at the mixed-sign input `l = −1`,
`u = 1`. -/
theorem C2_relu_envelope_cases_witness :
    get_lin_lower_bound_coefficients (-1 : ℚ) 1 = (1 / (1 - (-1)), 0) ∧
    get_lin_upper_bound_coefficients (-1 : ℚ) 1 = (1 / (1 - (-1)), -(1 * (-1)) / (1 - (-1))) :=
  (C2_relu_envelope_cases (-1) 1 (by norm_num)).2.2 (by norm_num) (by norm_num)

/-- Claim C3: `compute_dense_output_bounds` returns the symbolic bound with
lower part `(W⁺·M_L + W⁻·M_U, W⁺·q_L + W⁻·q_U + b)` and upper part
`(W⁺·M_U + W⁻·M_L, W⁺·q_U + W⁻·q_L + b)`, `W⁺`/`W⁻` being the entrywise
positive/negative parts of the weight. -/
theorem C3_dense_transformer (W : Mat) (b : Vec) (p : ℕ) (S : SymbolicLinearBounds) :
    compute_dense_output_bounds W b p S =
      ⟨⟨matAdd (matMul (get_positive_part W) S.lower.matrix p)
               (matMul (get_negative_part W) S.upper.matrix p),
        vecAdd (vecAdd (matVecMul (get_positive_part W) S.lower.offset p)
                       (matVecMul (get_negative_part W) S.upper.offset p)) b⟩,
       ⟨matAdd (matMul (get_positive_part W) S.upper.matrix p)
               (matMul (get_negative_part W) S.lower.matrix p),
        vecAdd (vecAdd (matVecMul (get_positive_part W) S.upper.offset p)
                       (matVecMul (get_negative_part W) S.lower.offset p)) b⟩⟩ := rfl

/-- Claim C6 — evaluation at the failing input.  For `in_dim = (2,3)` and
`axes = (2,0)` the source inserts the singletons in the **given** order and
produces `(1,2,3,1)`; inserting at the axes taken in **sorted** order, as
the claim and the dead `temp_axes.sort()` line intend, gives `(1,2,1,3)`. -/
theorem C6_unsqueeze_unsorted_insertion :
    unsqueeze_out_dim [2, 3] [2, 0] = [1, 2, 3, 1] ∧
    unsqueeze_out_dim_sorted [2, 3] [2, 0] = [1, 2, 1, 3] ∧
    unsqueeze_out_dim [2, 3] [2, 0] ≠ unsqueeze_out_dim_sorted [2, 3] [2, 0] := by
  decide

/-- Claim C7 — evaluation at the failing input.  For `in_dim = (2,3)` and
`axis = 0` the source reshapes with `(-1,)` and records the one-element shape
`(6,)`, while the class docstring (and the claim) state `(1, 6)`; for a
nonzero axis the source matches the claim (instance `axis = 1`). -/
theorem C7_flatten_axis_zero :
    flatten_out_dim [2, 3] 0 = [6] ∧
    flatten_out_dim_docstring [2, 3] 0 = [1, 6] ∧
    flatten_out_dim [2, 3] 0 ≠ flatten_out_dim_docstring [2, 3] 0 ∧
    flatten_out_dim [2, 3] 1 = [2, 3] := by decide

/-- Claim C8 — counterexample.  With `in_dim = (2,)` and
`in_dim_second = (2,3)` the two shape tuples are not identical, yet the
validation loop only walks the indices of `in_dim` and construction
succeeds (with `out_dim = in_dim`). -/
theorem C8_counterexample :
    okOf (sumNode_init [2] [2, 3]) = some [2] ∧ ([2] : List ℕ) ≠ [2, 3] := by decide

/-- Claim C8 (amended): constructing a `SumNode` succeeds if and only if
`in_dim` is a prefix of `in_dim_second` (trailing extra dimensions of
`in_dim_second` are never examined; a shorter `in_dim_second` raises);
whenever construction succeeds, `out_dim = in_dim`. -/
theorem C8_sum_shape_check (a b : List ℕ) :
    (sumNode_init a b = Except.ok a ↔ a <+: b) ∧
    (∀ r, sumNode_init a b = Except.ok r → r = a) := by
  constructor
  · rw [← sumCheck_ok_iff]
    unfold sumNode_init
    cases h : sumCheck a b with
    | ok u => cases u; simp
    | error e => simp
  · intro r hr
    unfold sumNode_init at hr
    cases h : sumCheck a b with
    | ok u => rw [h] at hr; cases hr; rfl
    | error e => rw [h] at hr; cases hr

/-- Witness for `C8_sum_shape_check` at `in_dim = (2,)`, `in_dim_second = (2,3)`. -/
theorem C8_sum_shape_check_witness : ([2] : List ℕ) = [2] :=
  (C8_sum_shape_check [2] [2, 3]).2 [2] (by rfl)

/-- Claim C9: with `track_running_stats = True` and all four parameter
tensors omitted, `BatchNormNode.__init__` initialises `running_mean` to the
all-ones vector, `running_var` to the all-zeros vector, `weight` to all-ones
and `bias` to all-zeros, each of length `num_features = in_dim[0]`. -/
theorem C9_batchnorm_defaults (nf : ℕ) (rest : List ℕ) :
    batchnorm_init (nf :: rest) none none none none true =
      Except.ok ⟨List.replicate nf 1, List.replicate nf 0,
                 some (List.replicate nf 1), some (List.replicate nf 0)⟩ := by
  simp [batchnorm_init]

end PyNever
